import Mathlib

/-!
Verification of the hubspot-modules content pipeline.

The definitions below are a shallow embedding of the Python sources:
  * scripts/update-content.py   (path addressing, payload reinjection)
  * scripts/get-content.py      (field extraction)
  * scripts/gpt-translate.py    (checkpoint loop, OpenAI variant)
  * scripts/translate.py        (checkpoint loop, Gemini variant)
  * scripts/holiday-page-scripts/update-content.py (environment validation)

JSON trees use a mutually inductive type; Python dicts are association
lists in insertion order.  CPython string operations are modelled over
`List Char` (ASCII-faithful; the sources only manipulate ASCII key
material, and all keyword tables are ASCII).
-/

namespace Hubspot

/-! ### Characters and basic string routines -/

/-- Whitespace stripped by CPython `str.strip()` / `int()` (ASCII part;
the Unicode space classes never occur in the key/keyword material the
scripts manipulate). -/
def isPySpace (c : Char) : Bool :=
  c = ' ' || c = '\t' || c = '\n' || c = '\r' || c = '\x0b' || c = '\x0c'

/-- Python `str.strip()` on a character list. -/
def stripChars (l : List Char) : List Char :=
  ((l.dropWhile isPySpace).reverse.dropWhile isPySpace).reverse

/-- Python `str.lower()` (ASCII range, which covers every keyword table in
the sources). -/
def lowerChars (l : List Char) : List Char :=
  l.map Char.toLower

/-- Whether `pre` is an initial segment of `l`. -/
def isPre : List Char → List Char → Bool
  | [], _ => true
  | _ :: _, [] => false
  | p :: ps, c :: cs => p = c && isPre ps cs

/-- Python substring containment `needle in hay`. -/
def containsSub (hay needle : List Char) : Bool :=
  match hay with
  | [] => isPre needle []
  | _ :: rest => isPre needle hay || containsSub rest needle

/-- Python `hay.endswith(suf)`. -/
def endsWithChars (hay suf : List Char) : Bool :=
  isPre suf.reverse hay.reverse

/-- Python `key_path.split(".")`: always returns at least one (possibly
empty) piece. -/
def splitDot : List Char → List (List Char)
  | [] => [[]]
  | '.' :: rest => [] :: splitDot rest
  | c :: rest =>
    match splitDot rest with
    | [] => [[c]]
    | p :: ps => (c :: p) :: ps

/-- Decimal digits of a positive numeral, most significant first,
accumulated onto `acc`. -/
def natToCharsAux : Nat → List Char → List Char
  | 0, acc => acc
  | n + 1, acc =>
    natToCharsAux ((n + 1) / 10) (Char.ofNat (48 + (n + 1) % 10) :: acc)
decreasing_by exact Nat.div_lt_self (Nat.succ_pos n) (by omega)

/-- Python `str(i)` for a non-negative integer (decimal numeral). -/
def natToChars (n : Nat) : List Char :=
  match n with
  | 0 => ['0']
  | n + 1 => natToCharsAux (n + 1) []

/-- Python `str(i)` for an arbitrary integer. -/
def intToChars (i : Int) : List Char :=
  if i < 0 then '-' :: natToChars i.natAbs else natToChars i.natAbs

/-- Numeric value of a digit list (most significant first). -/
def valDigits (l : List Char) : Nat :=
  l.foldl (fun a c => 10 * a + (c.toNat - 48)) 0

/-- Python `int(s)`: strips whitespace, accepts an optional sign followed
by decimal digits, raises `ValueError` (here: `none`) on anything else.
(The digit-group underscores accepted by CPython never occur in the
paths this repository produces.) -/
def pyInt? (l : List Char) : Option Int :=
  match stripChars l with
  | [] => none
  | c :: rest =>
    if c = '-' then
      if rest ≠ [] && rest.all Char.isDigit then some (-(valDigits rest : Int)) else none
    else if c = '+' then
      if rest ≠ [] && rest.all Char.isDigit then some (valDigits rest : Int) else none
    else if (c :: rest).all Char.isDigit then some (valDigits (c :: rest) : Int) else none

/-! ### The JSON document model -/

/-- Python dict keys occurring in the scripts: strings from parsed JSON,
and the integers that `update_nested_field` can insert via
`ref[field][idx] = value` when `ref[field]` is a dict. -/
inductive JKey where
  | str (s : String)
  | int (n : Int)
deriving DecidableEq

mutual
/-- A nested document: the JSON trees the scripts fetch and patch. -/
inductive Json where
  | null
  | bool (b : Bool)
  | num (n : Int)
  | str (s : String)
  | arr (a : JArr)
  | obj (o : JObj)
deriving DecidableEq

/-- A JSON array (Python list), as a cons list. -/
inductive JArr where
  | nil
  | cons (hd : Json) (tl : JArr)
deriving DecidableEq

/-- A JSON object (Python dict), bindings in insertion order. -/
inductive JObj where
  | nil
  | cons (k : JKey) (v : Json) (tl : JObj)
deriving DecidableEq
end

/-- Length of a JSON array. -/
def JArr.length : JArr → Nat
  | .nil => 0
  | .cons _ tl => 1 + tl.length

/-- Element at a (non-negative) position. -/
def JArr.nth : JArr → Nat → Option Json
  | .nil, _ => none
  | .cons hd _, 0 => some hd
  | .cons _ tl, n + 1 => tl.nth n

/-- Replace the element at a (non-negative, in-range) position. -/
def JArr.setNth : JArr → Nat → Json → JArr
  | .nil, _, _ => .nil
  | .cons _ tl, 0, v => .cons v tl
  | .cons hd tl, n + 1, v => .cons hd (tl.setNth n v)

/-- Python dict lookup by string key (keys are unique in a real dict, so
first match is the binding). -/
def JObj.lookupStr : JObj → String → Option Json
  | .nil, _ => none
  | .cons (.str s) v tl, k => if s = k then some v else tl.lookupStr k
  | .cons (.int _) _ tl, k => tl.lookupStr k

/-- Python dict assignment `d[k] = v` with a string key: overwrite in
place, else append. -/
def JObj.setStr : JObj → String → Json → JObj
  | .nil, k, v => .cons (.str k) v .nil
  | .cons (.str s) w tl, k, v =>
    if s = k then .cons (.str s) v tl else .cons (.str s) w (tl.setStr k v)
  | .cons (.int n) w tl, k, v => .cons (.int n) w (tl.setStr k v)

/-- Python dict assignment `d[n] = v` with an integer key. -/
def JObj.setInt : JObj → Int → Json → JObj
  | .nil, k, v => .cons (.int k) v .nil
  | .cons (.int n) w tl, k, v =>
    if n = k then .cons (.int n) v tl else .cons (.int n) w (tl.setInt k v)
  | .cons (.str s) w tl, k, v => .cons (.str s) w (tl.setInt k v)

/-- Python dict lookup with an integer key. -/
def JObj.lookInt : JObj → Int → Option Json
  | .nil, _ => none
  | .cons (.int n) v tl, i => if n = i then some v else tl.lookInt i
  | .cons (.str _) _ tl, i => tl.lookInt i

/-! ### Outcomes of a Python block guarded by
`try ... except (KeyError, IndexError, TypeError)` -/

/-- `ok` is normal completion, `caught` is a raised `KeyError`,
`IndexError` or `TypeError` (absorbed by the handler in
`update_nested_field`), `raised` is any other exception — concretely the
`ValueError` out of `int()` — which escapes the handler. -/
inductive PyRes (α : Type) where
  | ok (a : α)
  | caught
  | raised
deriving DecidableEq

def PyRes.bind : PyRes α → (α → PyRes β) → PyRes β
  | .ok a, f => f a
  | .caught, _ => .caught
  | .raised, _ => .raised

instance : Monad PyRes where
  pure := PyRes.ok
  bind := PyRes.bind

/-! ### Path addressing (scripts/update-content.py, update_nested_field) -/

/-- Python subscript `ref[k]` with a string subscript: dict lookup
(`KeyError` if absent); every other receiver raises `TypeError`. -/
def subscriptStr : Json → String → PyRes Json
  | .obj o, k =>
    match o.lookupStr k with
    | some v => .ok v
    | none => .caught
  | _, _ => .caught

/-- Normalise a Python sequence index (negative indices count from the
end); `none` is `IndexError`. -/
def normIdx (len : Nat) (i : Int) : Option Nat :=
  if 0 ≤ i then
    if i < (len : Int) then some i.toNat else none
  else
    if -(len : Int) ≤ i then some (len - (-i).toNat) else none

/-- Python subscript `ref[i]` with an integer subscript: list indexing,
string indexing (yielding a one-character string), `KeyError` on a dict
without that key, `TypeError` otherwise. -/
def subscriptInt : Json → Int → PyRes Json
  | .arr a, i =>
    match normIdx a.length i with
    | some n =>
      match a.nth n with
      | some v => .ok v
      | none => .caught
    | none => .caught
  | .str s, i =>
    match normIdx s.length i with
    | some n =>
      match s.data.get? n with
      | some c => .ok (.str (String.mk [c]))
      | none => .caught
    | none => .caught
  | .obj o, i =>
    match JObj.lookInt o i with
    | some v => .ok v
    | none => .caught
  | _, _ => .caught

/-- The text before the first `[` of a part: `p.split("[")[0]`. -/
def fieldOf (p : List Char) : List Char :=
  p.takeWhile (fun c => c ≠ '[')

/-- Index of the first occurrence of a character (the length when
absent; `p.find` in Python, which both call sites guard with a
containment check). -/
def firstIdx (ch : Char) : List Char → Nat
  | [] => 0
  | c :: rest => if c = ch then 0 else firstIdx ch rest + 1

/-- The text `p[p.find("[") + 1 : p.find("]")]` — between the first `[`
and the first `]` of the whole part (empty when the slice is reversed,
e.g. when the first `]` precedes the first `[`). -/
def bracketText (p : List Char) : List Char :=
  (p.take (firstIdx ']' p)).drop (firstIdx '[' p + 1)

/-- Whether the part takes the `name[idx]` branch:
`"[" in p and "]" in p`. -/
def isBracketPart (p : List Char) : Bool :=
  p.contains '[' && p.contains ']'

/-- The final assignment `ref[last_key] = new_value` /
`ref[field][idx] = new_value` of `update_nested_field`.  Plain dict
assignment always succeeds (creating the key when absent); item
assignment into a list can raise `IndexError`, into a string or scalar
`TypeError`; `int()` of a malformed bracket raises `ValueError`. -/
def assignPart (d : Json) (p : List Char) (v : Json) : PyRes Json :=
  if isBracketPart p then
    match pyInt? (bracketText p) with
    | none => .raised
    | some n =>
      match subscriptStr d (String.mk (fieldOf p)) with
      | .ok (.arr a) =>
        match normIdx a.length n with
        | some i =>
          match d with
          | .obj o => .ok (.obj (o.setStr (String.mk (fieldOf p)) (.arr (a.setNth i v))))
          | _ => .caught
        | none => .caught
      | .ok (.obj inner) =>
        match d with
        | .obj o => .ok (.obj (o.setStr (String.mk (fieldOf p)) (.obj (inner.setInt n v))))
        | _ => .caught
      | .ok _ => .caught
      | .caught => .caught
      | .raised => .raised
  else
    match d with
    | .obj o => .ok (.obj (o.setStr (String.mk p) v))
    | _ => .caught

/-- One step of the walk `for p in parts[:-1]`: `ref = ref[field][idx]`
for a bracketed part (the `int()` runs before the subscripts, so its
`ValueError` fires even when `field` is absent), `ref = ref[p]`
otherwise. -/
def walkPart (d : Json) (p : List Char) : PyRes Json :=
  if isBracketPart p then
    match pyInt? (bracketText p) with
    | none => .raised
    | some n => do
      let c ← subscriptStr d (String.mk (fieldOf p))
      subscriptInt c n
  else
    subscriptStr d (String.mk p)

/-- The read-direction walk over all parts (Path Addressing, read
access): subscripts the document through every part in turn. -/
def walkParts (d : Json) : List (List Char) → PyRes Json
  | [] => .ok d
  | p :: ps => do
    let c ← walkPart d p
    walkParts c ps

/-- Functional rendering of the write walk: descend through `parts`,
rebuild the containers around the recursive result, and perform
`assignPart` with `lastPart` at the bottom.  CPython mutates the
aliased sub-containers in place; rebuilding is equivalent because the
walk only passes through dicts and lists (a string child is a fresh
copy in Python, and no assignment through it can succeed). -/
def updateAt (d : Json) (parts : List (List Char)) (lastPart : List Char) (v : Json) : PyRes Json :=
  match parts with
  | [] => assignPart d lastPart v
  | p :: ps =>
    if isBracketPart p then
      match pyInt? (bracketText p) with
      | none => .raised
      | some n =>
        match subscriptStr d (String.mk (fieldOf p)) with
        | .ok (.arr a) =>
          match normIdx a.length n with
          | some i =>
            match a.nth i with
            | some child =>
              match updateAt child ps lastPart v with
              | .ok child' =>
                match d with
                | .obj o => .ok (.obj (o.setStr (String.mk (fieldOf p)) (.arr (a.setNth i child'))))
                | _ => .caught
              | r => r
            | none => .caught
          | none => .caught
        | .ok (.str s) =>
          match normIdx s.length n with
          | some i =>
            match s.data.get? i with
            | some c =>
              -- the child is a fresh one-character string: Python
              -- mutation through it cannot reach `d`, and in fact no
              -- assignment below a string ever succeeds
              match updateAt (.str (String.mk [c])) ps lastPart v with
              | .ok _ => .ok d
              | r => r
            | none => .caught
          | none => .caught
        | .ok (.obj inner) =>
          match inner.lookInt n with
          | some child =>
            match updateAt child ps lastPart v with
            | .ok child' =>
              match d with
              | .obj o => .ok (.obj (o.setStr (String.mk (fieldOf p)) (.obj (inner.setInt n child'))))
              | _ => .caught
            | r => r
          | none => .caught
        | .ok _ => .caught
        | .caught => .caught
        | .raised => .raised
    else
      match d with
      | .obj o =>
        match o.lookupStr (String.mk p) with
        | some child =>
          match updateAt child ps lastPart v with
          | .ok child' => .ok (.obj (o.setStr (String.mk p) child'))
          | r => r
        | none => .caught
      | _ => .caught

/-- `update_nested_field(data_obj, key_path, new_value)` from
scripts/update-content.py: split the path on dots, walk all but the
last part, assign through the last part.  `.ok (true, doc')` models
`return True` with the mutated document, `.ok (false, doc)` models the
`except (KeyError, IndexError, TypeError): return False` branch, and
`.raised` a `ValueError` escaping the function. -/
def update_nested_field (data_obj : Json) (key_path : String) (new_value : Json) :
    PyRes (Bool × Json) :=
  let parts := splitDot key_path.data
  match parts.getLast? with
  | none => .ok (false, data_obj)
  | some lastPart =>
    match updateAt data_obj parts.dropLast lastPart new_value with
    | .ok d' => .ok (true, d')
    | .caught => .ok (false, data_obj)
    | .raised => .raised

/-- Read-direction resolution of a full path string against a document:
the same part parsing and subscripting as `update_nested_field`, reading
the terminal value instead of assigning it. -/
def readPath (d : Json) (key_path : String) : PyRes Json :=
  walkParts d (splitDot key_path.data)

/-! ### Payload reinjection (scripts/update-content.py, main loop) -/

/-- `clean_path = key[5:] if key.startswith("root.") else key`. -/
def cleanPath (key : String) : String :=
  if isPre "root.".data key.data then String.mk (key.data.drop 5) else key

/-- Python dict assignment on an association list: overwrite the binding
in place when the key is present, append otherwise. -/
def insertAssoc : List (String × String) → String → String → List (String × String)
  | [], k, v => [(k, v)]
  | (ka, va) :: rest, k, v =>
    if ka = k then (ka, v) :: rest else (ka, va) :: insertAssoc rest k v

/-- Python `k[:-n]` (drop the last `n` characters, empty when `n` is at
least the length). -/
def dropLastChars (l : List Char) (n : Nat) : List Char :=
  l.take (l.length - n)

/-- The suffix-filtering dict comprehension of scripts/update-content.py:
`{k[:-suffix_len]: v for k, v in data.items() if k.endswith(suffix)}`. -/
def buildTranslations (data : List (String × String)) (suffix : String) :
    List (String × String) :=
  data.foldl
    (fun acc kv =>
      if endsWithChars kv.1.data suffix.data then
        insertAssoc acc (String.mk (dropLastChars kv.1.data suffix.length)) kv.2
      else acc)
    []

/-! ### Field extraction (scripts/get-content.py, extract_text_fields) -/

/-- The inclusion allow-list of extract_text_fields. -/
def includeKws : List (List Char) :=
  ["text".data, "heading".data, "title".data, "label".data, "content".data,
   "value".data, "placeholder".data, "caption".data, "alt".data, "description".data]

/-- The exclusion deny-list of extract_text_fields. -/
def excludeKws : List (List Char) :=
  ["script".data, "style".data, "css".data, "path".data]

/-- The key-name heuristic: some allow-list keyword occurs in
`key.lower()` and no deny-list keyword does. -/
def translatableKey (key : List Char) : Bool :=
  (includeKws.any fun kw => containsSub (lowerChars key) kw) &&
  !(excludeKws.any fun bad => containsSub (lowerChars key) bad)

/-- `str(key)` for a dict key as used in `f"{path}.{key}"`. -/
def keyChars : JKey → List Char
  | .str s => s.data
  | .int n => intToChars n

/-- Python dict assignment `result[key] = value` on char-list keys. -/
def insertAssocC : List (List Char × String) → List Char → String →
    List (List Char × String)
  | [], k, v => [(k, v)]
  | (ka, va) :: rest, k, v =>
    if ka = k then (ka, v) :: rest else (ka, va) :: insertAssocC rest k v

/-- Strip `pre` from the front of `l` when it is an initial segment. -/
def dropPre : List Char → List Char → Option (List Char)
  | l, [] => some l
  | [], _ :: _ => none
  | c :: cs, p :: ps => if p = c then dropPre cs ps else none

/-- First index of `k` in `l` (Python `list.index`, call sites guard
membership). -/
def idxOfKey : List String → String → Nat
  | [], _ => 0
  | x :: xs, k => if x = k then 0 else idxOfKey xs k + 1

mutual
/-- `extract_text_fields(obj, path, result)`: depth-first traversal
collecting translatable string leaves of dicts.  (On a dict with an
integer key and a string value CPython would raise `AttributeError` at
`key.lower()`; such dicts cannot come out of `json.load`, and every
theorem below restricts to string-keyed documents, so the model skips
them.) -/
def extractJC : Json → List Char → List (List Char × String) →
    List (List Char × String)
  | .obj o, path, result => extractObjC o path result
  | .arr a, path, result => extractArrC a 0 path result
  | _, _, result => result

/-- The dict branch: recurse into nested containers, collect string
leaves passing the key and value heuristics. -/
def extractObjC : JObj → List Char → List (List Char × String) →
    List (List Char × String)
  | .nil, _, result => result
  | .cons k v rest, path, result =>
    extractObjC rest path
      (match v with
       | .obj _ => extractJC v (path ++ '.' :: keyChars k) result
       | .arr _ => extractJC v (path ++ '.' :: keyChars k) result
       | .str s =>
         match k with
         | .str ks =>
           if translatableKey ks.data && stripChars s.data ≠ [] then
             insertAssocC result (path ++ '.' :: ks.data) s
           else result
         | .int _ => result
       | _ => result)

/-- The list branch: recurse into every element with `f"{path}[{i}]"`. -/
def extractArrC : JArr → Nat → List Char → List (List Char × String) →
    List (List Char × String)
  | .nil, _, _, result => result
  | .cons x rest, i, path, result =>
    extractArrC rest (i + 1) path
      (extractJC x (path ++ '[' :: (natToChars i ++ [']'])) result)
end

/-- `extract_text_fields(page_data)`: extraction from the synthetic
`"root"` path with an empty accumulator, keys rendered as strings. -/
def extract_text_fields (doc : Json) : List (String × String) :=
  (extractJC doc "root".data []).map fun kv => (String.mk kv.1, kv.2)

/-! ### The translation checkpoint loops
(scripts/gpt-translate.py and scripts/translate.py) -/

/-- Keys ending exactly like `...rows[<num>].0.rows[0].0.label`
(`re.search` of `\.rows\[\d+\]\.0\.rows\[0\]\.0\.label$`; `\d` here is
an ASCII digit, which covers every key the extractor can produce). -/
def is_exact_dynamic_row_pattern (key : String) : Bool :=
  match dropPre key.data.reverse ("].0.rows[0].0.label".data.reverse) with
  | none => false
  | some rest =>
    let ds := rest.takeWhile Char.isDigit
    let rest2 := rest.dropWhile Char.isDigit
    ds ≠ [] && isPre (".rows[".data.reverse) rest2

/-- `value.strip().lower().startswith("lorem ipsum")`. -/
def is_placeholder_text (value : String) : Bool :=
  isPre "lorem ipsum".data (lowerChars (stripChars value.data))

/-- `key.endswith(".content_type")`. -/
def is_content_type_key (key : String) : Bool :=
  endsWithChars key.data ".content_type".data

/-- `key.endswith("dnd_area.label")` (gpt-translate.py only). -/
def is_dnd_area_label_key (key : String) : Bool :=
  endsWithChars key.data "dnd_area.label".data

/-- `key.endswith("0.rows[0].0.label")` (gpt-translate.py only). -/
def is_rows_label_key (key : String) : Bool :=
  endsWithChars key.data "0.rows[0].0.label".data

/-- A flat mapping file held in memory: path → text, insertion order. -/
abbrev Mapping := List (String × String)

/-- Python `key in translated_content`. -/
def mapMem (m : Mapping) (k : String) : Bool :=
  m.any fun kv => kv.1 = k

/-- Python `translated_content[key]` as a partial read (first — hence,
in a real dict, only — binding of the key). -/
def mapGet (m : Mapping) (k : String) : Option String :=
  match m with
  | [] => none
  | kv :: rest => if kv.1 = k then some kv.2 else mapGet rest k

/-- Observable actions of one loop iteration: an external translation
request, or a rewrite of the translated-mapping file with a full
snapshot of the in-memory mapping. -/
inductive Event where
  | extCall (key : String)
  | save (snapshot : Mapping)
deriving DecidableEq

/-- The external translation call for one value, abstracted: `none` is
an exception or an empty/blank response after cleaning, `some t` the
cleaned text stored by the script. -/
abbrev Oracle := String → Option String

/-- One iteration of the gpt-translate.py loop body (lines 129–219), in
source order: skip already-translated, skip Lorem-ipsum placeholders,
copy `dnd_area.label` keys, copy `0.rows[0].0.label` keys, skip exact
dynamic-row keys, copy `.content_type` keys, otherwise call the model
and store a non-empty result; every store is followed by a full rewrite
of the translated file. -/
def gptStep (oracle : Oracle) (m : Mapping) (kv : String × String) :
    Mapping × List Event :=
  let (key, value) := kv
  if mapMem m key then (m, [])
  else if is_placeholder_text value then (m, [])
  else if is_dnd_area_label_key key then
    (insertAssoc m key value, [.save (insertAssoc m key value)])
  else if is_rows_label_key key then
    (insertAssoc m key value, [.save (insertAssoc m key value)])
  else if is_exact_dynamic_row_pattern key then (m, [])
  else if is_content_type_key key then
    (insertAssoc m key value, [.save (insertAssoc m key value)])
  else
    match oracle value with
    | none => (m, [.extCall key])
    | some t =>
      if t = "" then (m, [.extCall key])
      else (insertAssoc m key t, [.extCall key, .save (insertAssoc m key t)])

/-- One iteration of the translate.py (Gemini) loop body (lines
121–180), in source order: skip already-translated, skip exact
dynamic-row keys, skip Lorem-ipsum placeholders, copy `.content_type`
keys, otherwise call the model and store a non-empty result. -/
def gemStep (oracle : Oracle) (m : Mapping) (kv : String × String) :
    Mapping × List Event :=
  let (key, value) := kv
  if mapMem m key then (m, [])
  else if is_exact_dynamic_row_pattern key then (m, [])
  else if is_placeholder_text value then (m, [])
  else if is_content_type_key key then
    (insertAssoc m key value, [.save (insertAssoc m key value)])
  else
    match oracle value with
    | none => (m, [.extCall key])
    | some t =>
      if t = "" then (m, [.extCall key])
      else (insertAssoc m key t, [.extCall key, .save (insertAssoc m key t)])

/-- The `for i, (key, value) in enumerate(...)` loop over the pending
entries, threading the mapping and concatenating the emitted events in
iteration order. -/
def runLoop (step : Mapping → String × String → Mapping × List Event) :
    List (String × String) → Mapping → Mapping × List Event
  | [], m => (m, [])
  | kv :: rest, m =>
    let s := step m kv
    let r := runLoop step rest s.1
    (r.1, s.2 ++ r.2)

/-- `start_index`: 0 for an empty translated mapping; otherwise the
position after `translated_keys[-1]` in `base_keys` when that key
occurs there, and 0 when it does not. -/
def computeStartIndex (baseKeys translatedKeys : List String) : Nat :=
  match translatedKeys.getLast? with
  | none => 0
  | some last =>
    if last ∈ baseKeys then idxOfKey baseKeys last + 1 else 0

/-- A whole run of either translation script over loaded content:
the already-complete check (`base_keys[-1] in translated_keys`, which
crashes with an `IndexError` — modelled `none` — when the translated
mapping is non-empty but the source mapping is empty), then the loop
from the resume index.  The result is the final mapping and the event
trace. -/
def runScript (step : Mapping → String × String → Mapping × List Event)
    (base : List (String × String)) (m : Mapping) :
    Option (Mapping × List Event) :=
  let baseKeys := base.map Prod.fst
  let translatedKeys := m.map Prod.fst
  if translatedKeys.isEmpty then
    some (runLoop step base m)
  else
    match baseKeys.getLast? with
    | none => none
    | some lastBase =>
      if lastBase ∈ translatedKeys then some (m, [])
      else some (runLoop step (base.drop (computeStartIndex baseKeys translatedKeys)) m)

/-! ### Environment validation (C9) -/

/-- Side effects visible at script start-up. -/
inductive Effect where
  | netGet (url : String)
  | message (s : String)
  | abort
  | proceed
deriving DecidableEq

/-- Python `f"{x}"` on an `os.getenv` result. -/
def pyFmt : Option String → String
  | none => "None"
  | some s => s

/-- Python truthiness of an `os.getenv` result (`None` and the empty
string are falsy). -/
def pyTruthy : Option String → Bool
  | none => false
  | some s => s ≠ ""

/-- scripts/get-content.py, lines 8–23: read the two environment values
and immediately issue the GET against the formatted URL — there is no
presence check, so the fetch is the script's first external action
whatever the environment holds. -/
def getContentStartup (_apiKey pageId : Option String) : List Effect :=
  [.netGet ("https://api.hubapi.com/cms/v3/pages/site-pages/" ++ pyFmt pageId)]

/-- `validate_environment()` of
scripts/holiday-page-scripts/update-content.py. -/
def validate_environment (apiKey pageId : Option String) : Bool :=
  if !pyTruthy apiKey then false
  else if !pyTruthy pageId then false
  else true

/-- `main()` of scripts/holiday-page-scripts/update-content.py up to its
first network interaction: a failed validation prints guidance and
returns before anything else; a passing one proceeds to the file/network
phase (abstracted as `proceed`). -/
def holidayMainStartup (apiKey pageId : Option String) : List Effect :=
  if !validate_environment apiKey pageId then
    [.message "missing environment value", .abort]
  else
    [.proceed]

/-- `validate_environment()` of scripts/holiday-page-scripts/automate.py
(lines 191–201): the same two truthiness checks, on `HUBSPOT_API_KEY`
and `BASE_PAGE_ID`. -/
def automate_validate_environment (apiKey basePageId : Option String) : Bool :=
  if !pyTruthy apiKey then false
  else if !pyTruthy basePageId then false
  else true

/-- `main()` of scripts/holiday-page-scripts/automate.py up to its first
network interaction: the banner prints are pure console output, then a
failed validation prints guidance and returns before the state loop (and
so before `clone_hubspot_page` can issue its POST); a passing one
proceeds to the file/network phase (abstracted as `proceed`). -/
def automateMainStartup (apiKey basePageId : Option String) : List Effect :=
  if !automate_validate_environment apiKey basePageId then
    [.message "missing environment value", .abort]
  else
    [.proceed]

/-- The body of the `Apply translations` loop, iterating the entries in
order and threading the document, the `updated` counter and the
`not_found` list: for each entry, strip `root.`, call
`update_nested_field`, count a success or record the cleaned path.  A
`ValueError` out of `update_nested_field` is uncaught there and aborts
the script (`.raised`). -/
def applyGo : List (String × String) → Json → Nat → List String →
    PyRes (Json × Nat × List String)
  | [], d, updated, notFound => .ok (d, updated, notFound)
  | kv :: rest, d, updated, notFound =>
    match update_nested_field d (cleanPath kv.1) (.str kv.2) with
    | .ok (true, d') => applyGo rest d' (updated + 1) notFound
    | .ok (false, d') => applyGo rest d' updated (notFound ++ [cleanPath kv.1])
    | .caught => .caught
    | .raised => .raised

/-- The `Apply translations` loop of scripts/update-content.py, started
on the fetched page with zero updates and no failures. -/
def applyTranslations (translations : List (String × String)) (doc : Json) :
    PyRes (Json × Nat × List String) :=
  applyGo translations doc 0 []

/-! ### Derived observations on the loop models -/

/-- Keys of the external translation calls in an event trace. -/
def callKeys (evs : List Event) : List String :=
  evs.filterMap fun e =>
    match e with
    | .extCall k => some k
    | .save _ => none

/-- The snapshot of the most recent file rewrite in a trace (what is on
disk after the trace has happened). -/
def lastSave : List Event → Option Mapping
  | [] => none
  | Event.save s :: rest =>
    (match lastSave rest with
     | some s2 => some s2
     | none => some s)
  | Event.extCall _ :: rest => lastSave rest

/-- Whether a trace contains no file rewrite. -/
def saveFree (evs : List Event) : Bool :=
  evs.all fun e =>
    match e with
    | .save _ => false
    | .extCall _ => true

/-- An oracle that models a translation backend whose every call returns
a non-empty cleaned text (no exception, no empty completion). -/
def OracleTotal (oracle : Oracle) : Prop :=
  ∀ v, ∃ t, oracle v = some t ∧ t ≠ ""

/-- Which source entries a full gpt-translate.py run materialises in the
translated mapping, assuming a total oracle: everything except
Lorem-ipsum placeholders and keys caught by the dynamic-row skip (which
in this script sits behind the two copy branches). -/
def gptStores (kv : String × String) : Bool :=
  !is_placeholder_text kv.2 &&
    (is_dnd_area_label_key kv.1 || is_rows_label_key kv.1 ||
      !is_exact_dynamic_row_pattern kv.1)

/-- Which source entries a full translate.py run materialises, assuming
a total oracle: everything except dynamic-row keys and placeholders. -/
def gemStores (kv : String × String) : Bool :=
  !is_exact_dynamic_row_pattern kv.1 && !is_placeholder_text kv.2

/-! ### Bracket-shape conditions on paths -/

/-- A part is harmless for `int()`: either it does not take the bracket
branch, or the text between its brackets is a non-empty digit string. -/
def partOk (p : List Char) : Bool :=
  !isBracketPart p || (bracketText p ≠ [] && (bracketText p).all Char.isDigit)

/-- Every part of the dotted path encloses only decimal digits in its
brackets (the shape of every path the Field Extractor emits). -/
def digitBrackets (path : String) : Bool :=
  (splitDot path.data).all partOk

/-! ### Traversal routes: the abstract addresses behind extracted paths -/

/-- One step of a literal traversal route: a dict key or a list index. -/
inductive Seg where
  | key (k : String)
  | idx (i : Nat)
deriving DecidableEq

/-- The extractor's rendering of a route: `.key` for dict keys, `[i]`
for list indices. -/
def serialSegs : List Seg → List Char
  | [] => []
  | .key k :: rest => '.' :: (k.data ++ serialSegs rest)
  | .idx i :: rest => '[' :: (natToChars i ++ (']' :: serialSegs rest))

/-- Resolution of a route against a document (dict keys into objects,
indices into arrays, nothing else). -/
def getRoute : Json → List Seg → Option Json
  | d, [] => some d
  | .obj o, .key k :: rest => (o.lookupStr k).bind fun v => getRoute v rest
  | .arr a, .idx i :: rest => (a.nth i).bind fun v => getRoute v rest
  | _, _ => none

/-- Route resolution relative to an object suffix. -/
def getRouteO (o : JObj) : List Seg → Option Json
  | .key k :: rest => (o.lookupStr k).bind fun v => getRoute v rest
  | _ => none

/-- Route resolution relative to an array suffix whose first element has
absolute position `i`. -/
def getRouteA (a : JArr) (i : Nat) : List Seg → Option Json
  | .idx j :: rest =>
    if i ≤ j then (a.nth (j - i)).bind fun v => getRoute v rest else none
  | _ => none

/-- A key that round-trips through the dotted/bracketed micro-format:
no `.`, `[` or `]` anywhere in it. -/
def cleanKeyB (l : List Char) : Bool :=
  l.all fun c => c ≠ '.' && c ≠ '[' && c ≠ ']'

/-- All dict keys mentioned by a route are clean. -/
def keysClean : List Seg → Bool
  | [] => true
  | .key k :: rest => cleanKeyB k.data && keysClean rest
  | .idx _ :: rest => keysClean rest

/-- No index segment directly follows an index segment (no list nested
directly inside a list on the route). -/
def noIdxIdx : List Seg → Bool
  | .idx _ :: .idx _ :: _ => false
  | _ :: rest => noIdxIdx rest
  | [] => true

/-- The route starts with a dict key. -/
def headKey : List Seg → Bool
  | .key _ :: _ => true
  | _ => false

/-- Group an alternation-respecting route back into dotted parts: a key
alone gives a plain part, a key followed by an index gives a bracketed
part.  (Junk clause for an index head, unreachable under `headKey` and
`noIdxIdx`.) -/
def partsOf : List Seg → List (List Char)
  | [] => []
  | .key k :: .idx i :: rest => (k.data ++ ('[' :: (natToChars i ++ [']']))) :: partsOf rest
  | .key k :: rest => k.data :: partsOf rest
  | .idx i :: rest => ('[' :: (natToChars i ++ [']'])) :: partsOf rest

/-- Whether an object already binds a key. -/
def JObj.hasKey : JObj → JKey → Bool
  | .nil, _ => false
  | .cons k _ tl, k' => k = k' || tl.hasKey k'

/-- A string key free of the micro-format's metacharacters. -/
def cleanStrKey : JKey → Bool
  | .str s => cleanKeyB s.data
  | .int _ => false

/-- Whether a value is anything but a list. -/
def notArr : Json → Bool
  | .arr _ => false
  | _ => true

mutual
/-- A document as fetched from the CMS JSON API, restricted to the shape
on which the extractor's paths are unambiguous: string dict keys free of
`.`/`[`/`]`, no duplicate keys, and no list directly inside a list. -/
def WFJson : Json → Bool
  | .obj o => WFObj o
  | .arr a => WFArr a
  | _ => true

/-- Wellformedness of an object: clean distinct string keys, wellformed
values. -/
def WFObj : JObj → Bool
  | .nil => true
  | .cons k v rest =>
    cleanStrKey k && !(JObj.hasKey rest k) && WFJson v && WFObj rest

/-- Wellformedness of an array: elements wellformed and none of them an
array. -/
def WFArr : JArr → Bool
  | .nil => true
  | .cons x rest => notArr x && WFJson x && WFArr rest
end

/-! ### Concrete fixtures used by counterexamples and witnesses -/

/-- `{"a": {"title": "x"}}`. -/
def docATitle : Json :=
  .obj (.cons (.str "a") (.obj (.cons (.str "title") (.str "x") .nil)) .nil)

/-- `{"a": {}}` — the reinjection target with a missing final key. -/
def docAEmpty : Json :=
  .obj (.cons (.str "a") (.obj .nil) .nil)

/-- `{"title.x": "hello"}` — a dict key containing a dot. -/
def docDotKey : Json :=
  .obj (.cons (.str "title.x") (.str "hello") .nil)

/-- A key matched both by the exact dynamic-row pattern and by the
broader rows-label pass-through. -/
def dynRowKey : String :=
  "root.m.rows[3].0.rows[0].0.label"

/-- An oracle whose calls all fail (no call ever stores anything). -/
def oracleNone : Oracle := fun _ => none

/-- An oracle that prefixes the value (total, never empty). -/
def oracleT : Oracle := fun v => some ("T" ++ v)

/-! ## Basic lemmas about the mapping operations -/

theorem mapMem_iff_mem_keys (m : Mapping) (k : String) :
    mapMem m k = true ↔ k ∈ m.map Prod.fst := by
  induction m with
  | nil => simp [mapMem]
  | cons hd tl ih =>
    simp only [mapMem, List.any_cons, List.map_cons, List.mem_cons, Bool.or_eq_true,
      decide_eq_true_eq] at *
    constructor
    · rintro (h | h)
      · exact Or.inl h.symm
      · exact Or.inr (ih.mp h)
    · rintro (h | h)
      · exact Or.inl h.symm
      · exact Or.inr (ih.mpr h)

theorem insertAssoc_fresh (m : Mapping) (k : String) (v : String)
    (h : mapMem m k = false) : insertAssoc m k v = m ++ [(k, v)] := by
  induction m with
  | nil => simp [insertAssoc]
  | cons hd tl ih =>
    simp only [mapMem, List.any_cons, Bool.or_eq_false_iff, decide_eq_false_iff_not] at h
    simp only [insertAssoc, if_neg h.1, List.cons_append]
    rw [ih]
    simp only [mapMem]
    exact h.2

theorem mapGet_insertAssoc_self (m : Mapping) (k : String) (v : String) :
    mapGet (insertAssoc m k v) k = some v := by
  induction m with
  | nil => simp [insertAssoc, mapGet]
  | cons hd tl ih =>
    cases hd with
    | mk ka va =>
      by_cases hk : ka = k
      · simp only [insertAssoc, if_pos hk, mapGet]
      · simp only [insertAssoc, if_neg hk, mapGet]
        exact ih

theorem mapGet_insertAssoc_ne (m : Mapping) (k k' : String) (v : String)
    (h : k' ≠ k) : mapGet (insertAssoc m k v) k' = mapGet m k' := by
  induction m with
  | nil =>
    simp only [insertAssoc, mapGet]
    rw [if_neg (fun hh => h hh.symm)]
  | cons hd tl ih =>
    cases hd with
    | mk ka va =>
      by_cases hk : ka = k
      · simp only [insertAssoc, if_pos hk, mapGet]
        subst hk
        rw [if_neg (fun hh => h hh.symm), if_neg (fun hh => h hh.symm)]
      · simp only [insertAssoc, if_neg hk, mapGet]
        by_cases hk' : ka = k'
        · rw [if_pos hk', if_pos hk']
        · rw [if_neg hk', if_neg hk']
          exact ih

theorem keys_insertAssoc_fresh (m : Mapping) (k : String) (v : String)
    (h : mapMem m k = false) :
    (insertAssoc m k v).map Prod.fst = m.map Prod.fst ++ [k] := by
  rw [insertAssoc_fresh m k v h]
  simp

/-! ## Counterexample theorems for claims the code falsifies -/

/-- C1 counterexample: a translated flat mapping keyed by the same bare
path strings as the source mapping (here `root.a.title`) is filtered
away entirely by the suffix comprehension of scripts/update-content.py
before the write loop runs, so nothing is written back — refuting
"no entry is discarded before the write loop on account of its key's
spelling". -/
theorem C1_counterexample :
    buildTranslations [("root.a.title", "X")] "_th" = [] ∧
    applyTranslations (buildTranslations [("root.a.title", "X")] "_th") docATitle =
      .ok (docATitle, 0, []) := by
  constructor
  · rfl
  · rfl

/-- C3 counterexample: for the document `{"title.x": "hello"}` the
extractor emits the entry `("root.title.x", "hello")`, but resolving
that path back against the document splits on the dot inside the key
and fails: the read walk raises `KeyError` (caught) and
`update_nested_field` returns `False` instead of reaching the stored
value. -/
theorem C3_counterexample :
    extract_text_fields docDotKey = [("root.title.x", "hello")] ∧
    readPath docDotKey (cleanPath "root.title.x") = .caught ∧
    update_nested_field docDotKey (cleanPath "root.title.x") (.str "hello") =
      .ok (false, docDotKey) := by
  refine ⟨?_, ?_, ?_⟩ <;> rfl

/-- C5 counterexample: with a single-entry source whose value is
Lorem-ipsum placeholder text, the first gpt-translate.py run stores
nothing, so on the second run the translated mapping is still empty and
the resume index is 0, not the end of the source key list (1): the
second-run loop is entered again rather than terminating beforehand. -/
theorem C5_counterexample :
    runScript (gptStep oracleT) [("root.a.title", "Lorem ipsum dolor")] [] =
      some ([], []) ∧
    computeStartIndex ["root.a.title"] [] = 0 ∧
    ([("root.a.title", "Lorem ipsum dolor")] : List (String × String)).length = 1 := by
  refine ⟨?_, ?_, ?_⟩ <;> rfl

/-- C6 counterexample: the key `root.m.rows[3].0.rows[0].0.label`
matches both the exact dynamic-row pattern and the broader rows-label
predicate, yet in gpt-translate.py the broader predicate is checked
first, so the entry is copied into the translated mapping — it is not
"skipped entirely and never written" as the claim requires of every
translation loop. -/
theorem C6_counterexample :
    is_exact_dynamic_row_pattern dynRowKey = true ∧
    is_rows_label_key dynRowKey = true ∧
    gptStep oracleNone [] (dynRowKey, "Go") =
      ([(dynRowKey, "Go")], [.save [(dynRowKey, "Go")]]) := by
  refine ⟨?_, ?_, ?_⟩ <;> rfl

/-- C7 counterexample: a source entry whose key ends in `.content_type`
but whose value starts with "Lorem ipsum" is caught by the placeholder
skip, which both scripts check before the content-type pass-through:
after a full gpt-translate.py run from an empty state the key does not
appear in the translated mapping at all, refuting "always appears in the
final translated mapping with its original value". -/
theorem C7_counterexample :
    is_content_type_key "root.a.content_type" = true ∧
    runScript (gptStep oracleT) [("root.a.content_type", "Lorem ipsum dolor")] [] =
      some ([], []) := by
  exact ⟨rfl, rfl⟩

/-- C8 counterexample: writing through the path `root.a.b` into the
target `{"a": {}}` — a path that does not exist in the target's shape —
does not return `False`: the final plain dict assignment creates the
missing key and returns `True`, and the reinjection loop consequently
reports zero unresolved paths instead of exactly one. -/
theorem C8_counterexample :
    update_nested_field docAEmpty (cleanPath "root.a.b") (.str "x") =
      .ok (true, .obj (.cons (.str "a") (.obj (.cons (.str "b") (.str "x") .nil)) .nil)) ∧
    applyTranslations [("root.a.b", "x")] docAEmpty =
      .ok (.obj (.cons (.str "a") (.obj (.cons (.str "b") (.str "x") .nil)) .nil), 1, []) := by
  exact ⟨rfl, rfl⟩

/-- C9 counterexample: scripts/get-content.py performs no environment
check at all — with both `HUBSPOT_API_KEY` and `PAGE_ID` absent its
first external action is still the page fetch, against a URL containing
the literal `None`, refuting "every script aborts with a clear message
before attempting any network call". -/
theorem C9_counterexample :
    getContentStartup none none =
      [.netGet "https://api.hubapi.com/cms/v3/pages/site-pages/None"] := rfl

/-! ## C9: environment validation -/

/-- C9 amended: environment validation is per-script, not universal.
scripts/holiday-page-scripts/update-content.py and
scripts/holiday-page-scripts/automate.py each gate `main()` on a
`validate_environment()` check — when either required value is absent
(or empty), both print guidance and return before any network call;
scripts/get-content.py, by contrast, performs no check and issues the
fetch unconditionally as its first external action (see the
counterexample). -/
theorem C9_amended (apiKey pageId : Option String)
    (h : pyTruthy apiKey = false ∨ pyTruthy pageId = false) :
    (holidayMainStartup apiKey pageId = [.message "missing environment value", .abort] ∧
      ∀ url, Effect.netGet url ∉ holidayMainStartup apiKey pageId) ∧
    (automateMainStartup apiKey pageId = [.message "missing environment value", .abort] ∧
      ∀ url, Effect.netGet url ∉ automateMainStartup apiKey pageId) ∧
    getContentStartup apiKey pageId =
      [.netGet ("https://api.hubapi.com/cms/v3/pages/site-pages/" ++ pyFmt pageId)] := by
  have hv : validate_environment apiKey pageId = false := by
    rcases h with h | h
    · simp [validate_environment, h]
    · cases hk : pyTruthy apiKey <;> simp [validate_environment, h, hk]
  have hva : automate_validate_environment apiKey pageId = false := by
    rcases h with h | h
    · simp [automate_validate_environment, h]
    · cases hk : pyTruthy apiKey <;> simp [automate_validate_environment, h, hk]
  refine ⟨⟨by simp [holidayMainStartup, hv], ?_⟩,
    ⟨by simp [automateMainStartup, hva], ?_⟩, rfl⟩
  · intro url
    simp [holidayMainStartup, hv]
  · intro url
    simp [automateMainStartup, hva]

/-- Witness for C9 amended at a concrete environment: the credential is
absent, the page id present. -/
theorem C9_amended_witness :
    (pyTruthy none = false ∨ pyTruthy (some "12345") = false) ∧
    ((holidayMainStartup none (some "12345") =
        [.message "missing environment value", .abort] ∧
      ∀ url, Effect.netGet url ∉ holidayMainStartup none (some "12345")) ∧
    (automateMainStartup none (some "12345") =
        [.message "missing environment value", .abort] ∧
      ∀ url, Effect.netGet url ∉ automateMainStartup none (some "12345")) ∧
    getContentStartup none (some "12345") =
      [.netGet ("https://api.hubapi.com/cms/v3/pages/site-pages/" ++ pyFmt (some "12345"))]) :=
  ⟨Or.inl rfl, C9_amended none (some "12345") (Or.inl rfl)⟩

/-! ## Loop trace lemmas shared by the checkpoint-loop claims -/

theorem runLoop_nil (step : Mapping → String × String → Mapping × List Event)
    (m : Mapping) : runLoop step [] m = (m, []) := rfl

theorem runLoop_cons (step : Mapping → String × String → Mapping × List Event)
    (kv : String × String) (rest : List (String × String)) (m : Mapping) :
    runLoop step (kv :: rest) m =
      ((runLoop step rest (step m kv).1).1,
        (step m kv).2 ++ (runLoop step rest (step m kv).1).2) := rfl

theorem saveFree_append (a b : List Event) :
    saveFree (a ++ b) = (saveFree a && saveFree b) := by
  simp [saveFree, List.all_append]

theorem lastSave_append (a b : List Event) :
    lastSave (a ++ b) =
      (match lastSave b with
       | some s => some s
       | none => lastSave a) := by
  induction a with
  | nil =>
    simp only [List.nil_append]
    cases hb : lastSave b <;> simp [lastSave]
  | cons e a ih =>
    cases e with
    | save s =>
      simp only [List.cons_append, lastSave, List.append_eq, ih]
      cases hb : lastSave b <;> cases ha : lastSave a <;> simp
    | extCall k =>
      simp only [List.cons_append, lastSave, List.append_eq, ih]

theorem lastSave_of_saveFree (evs : List Event) (h : saveFree evs = true) :
    lastSave evs = none := by
  induction evs with
  | nil => rfl
  | cons e rest ih =>
    simp only [saveFree, List.all_cons, Bool.and_eq_true] at h
    have hrest : saveFree rest = true := by
      simp [saveFree, h.2]
    cases e with
    | save s => simp at h
    | extCall k =>
      simp only [lastSave]
      exact ih hrest

/-- A step either leaves the mapping untouched and rewrites no file, or
its trace ends with a rewrite of exactly the new mapping. -/
def StepSaves (step : Mapping → String × String → Mapping × List Event) : Prop :=
  ∀ m kv,
    ((step m kv).1 = m ∧ saveFree (step m kv).2 = true) ∨
    ∃ pre, (step m kv).2 = pre ++ [Event.save (step m kv).1]

theorem gptStep_saves (o : Oracle) : StepSaves (gptStep o) := by
  intro m kv
  obtain ⟨k, v⟩ := kv
  simp only [gptStep]
  by_cases h1 : mapMem m k
  · simp only [h1, if_true]
    exact Or.inl ⟨by simp, by simp [saveFree]⟩
  · simp only [h1, Bool.false_eq_true, if_false]
    by_cases h2 : is_placeholder_text v
    · simp only [h2, if_true]
      exact Or.inl ⟨by simp, by simp [saveFree]⟩
    · simp only [h2, Bool.false_eq_true, if_false]
      by_cases h3 : is_dnd_area_label_key k
      · simp only [h3, if_true]
        exact Or.inr ⟨[], rfl⟩
      · simp only [h3, Bool.false_eq_true, if_false]
        by_cases h4 : is_rows_label_key k
        · simp only [h4, if_true]
          exact Or.inr ⟨[], rfl⟩
        · simp only [h4, Bool.false_eq_true, if_false]
          by_cases h5 : is_exact_dynamic_row_pattern k
          · simp only [h5, if_true]
            exact Or.inl ⟨by simp, by simp [saveFree]⟩
          · simp only [h5, Bool.false_eq_true, if_false]
            by_cases h6 : is_content_type_key k
            · simp only [h6, if_true]
              exact Or.inr ⟨[], rfl⟩
            · simp only [h6, Bool.false_eq_true, if_false]
              cases ho : o v with
              | none => exact Or.inl ⟨by simp, by simp [saveFree]⟩
              | some t =>
                by_cases ht : t = ""
                · simp only [ht, if_true]
                  exact Or.inl ⟨by simp, by simp [saveFree]⟩
                · simp only [ht, Bool.false_eq_true, if_false]
                  exact Or.inr ⟨[Event.extCall k], rfl⟩

theorem gemStep_saves (o : Oracle) : StepSaves (gemStep o) := by
  intro m kv
  obtain ⟨k, v⟩ := kv
  simp only [gemStep]
  by_cases h1 : mapMem m k
  · simp only [h1, if_true]
    exact Or.inl ⟨by simp, by simp [saveFree]⟩
  · simp only [h1, Bool.false_eq_true, if_false]
    by_cases h2 : is_exact_dynamic_row_pattern k
    · simp only [h2, if_true]
      exact Or.inl ⟨by simp, by simp [saveFree]⟩
    · simp only [h2, Bool.false_eq_true, if_false]
      by_cases h3 : is_placeholder_text v
      · simp only [h3, if_true]
        exact Or.inl ⟨by simp, by simp [saveFree]⟩
      · simp only [h3, Bool.false_eq_true, if_false]
        by_cases h4 : is_content_type_key k
        · simp only [h4, if_true]
          exact Or.inr ⟨[], rfl⟩
        · simp only [h4, Bool.false_eq_true, if_false]
          cases ho : o v with
          | none => exact Or.inl ⟨by simp, by simp [saveFree]⟩
          | some t =>
            by_cases ht : t = ""
            · simp only [ht, if_true]
              exact Or.inl ⟨by simp, by simp [saveFree]⟩
            · simp only [ht, Bool.false_eq_true, if_false]
              exact Or.inr ⟨[Event.extCall k], rfl⟩

theorem runLoop_saves (step : Mapping → String × String → Mapping × List Event)
    (hstep : StepSaves step) (entries : List (String × String)) (m : Mapping) :
    lastSave (runLoop step entries m).2 = some (runLoop step entries m).1 ∨
    ((runLoop step entries m).1 = m ∧ saveFree (runLoop step entries m).2 = true) := by
  induction entries generalizing m with
  | nil => exact Or.inr ⟨rfl, rfl⟩
  | cons kv rest ih =>
    rw [runLoop_cons]
    rcases ih (step m kv).1 with htail | htail
    · left
      rw [lastSave_append, htail]
    · rcases hstep m kv with hskip | ⟨pre, hpre⟩
      · right
        refine ⟨htail.1.trans hskip.1, ?_⟩
        rw [saveFree_append, hskip.2, htail.2]
        rfl
      · left
        rw [lastSave_append, lastSave_of_saveFree _ htail.2, hpre, lastSave_append]
        simp [lastSave, htail.1]

/-- C4 confirmed: in both checkpoint loops, an iteration that mutates
the in-memory translated mapping ends its trace with a rewrite of the
file to exactly the new full mapping (and an iteration that does not
mutate writes nothing); consequently, over any run, the last on-disk
snapshot is the final in-memory mapping unless no mutation happened at
all — so a kill loses at most the in-flight entry. -/
theorem C4_persistence :
    (∀ (o : Oracle) (m : Mapping) (kv : String × String),
      ((gptStep o m kv).1 = m ∧ saveFree (gptStep o m kv).2 = true) ∨
      ∃ pre, (gptStep o m kv).2 = pre ++ [Event.save (gptStep o m kv).1]) ∧
    (∀ (o : Oracle) (m : Mapping) (kv : String × String),
      ((gemStep o m kv).1 = m ∧ saveFree (gemStep o m kv).2 = true) ∨
      ∃ pre, (gemStep o m kv).2 = pre ++ [Event.save (gemStep o m kv).1]) ∧
    (∀ (o : Oracle) (entries : List (String × String)) (m : Mapping),
      lastSave (runLoop (gptStep o) entries m).2 = some (runLoop (gptStep o) entries m).1 ∨
      ((runLoop (gptStep o) entries m).1 = m ∧
        saveFree (runLoop (gptStep o) entries m).2 = true)) ∧
    (∀ (o : Oracle) (entries : List (String × String)) (m : Mapping),
      lastSave (runLoop (gemStep o) entries m).2 = some (runLoop (gemStep o) entries m).1 ∨
      ((runLoop (gemStep o) entries m).1 = m ∧
        saveFree (runLoop (gemStep o) entries m).2 = true)) :=
  ⟨fun o => gptStep_saves o, fun o => gemStep_saves o,
    fun o => runLoop_saves (gptStep o) (gptStep_saves o),
    fun o => runLoop_saves (gemStep o) (gemStep_saves o)⟩

/-! ## C2: resume index of the checkpoint loops -/

theorem idxOfKey_getElem (l : List String) (hl : l.Nodup) :
    ∀ (i : Nat) (hi : i < l.length), idxOfKey l (l.get ⟨i, hi⟩) = i := by
  induction l with
  | nil => intro i hi; exact absurd hi (by simp)
  | cons x xs ih =>
    intro i hi
    cases i with
    | zero => simp [idxOfKey]
    | succ j =>
      have hx : x ∉ xs := (List.nodup_cons.mp hl).1
      have hj : j < xs.length := by simpa using hi
      have hne : x ≠ xs.get ⟨j, hj⟩ := by
        intro he
        exact hx (he ▸ xs.get_mem j hj)
      simp only [List.get_cons_succ, idxOfKey, if_neg hne]
      rw [ih (List.nodup_cons.mp hl).2 j hj]

/-- Every external-call event of a step carries that step's own key. -/
def StepCallsOwn (step : Mapping → String × String → Mapping × List Event) : Prop :=
  ∀ m kv k, Event.extCall k ∈ (step m kv).2 → k = kv.1

theorem gptStep_callsOwn (o : Oracle) : StepCallsOwn (gptStep o) := by
  intro m kv k
  obtain ⟨key, v⟩ := kv
  simp only [gptStep]
  by_cases h1 : mapMem m key
  · simp [h1]
  · simp only [h1, Bool.false_eq_true, if_false]
    by_cases h2 : is_placeholder_text v
    · simp [h2]
    · simp only [h2, Bool.false_eq_true, if_false]
      by_cases h3 : is_dnd_area_label_key key
      · simp [h3]
      · simp only [h3, Bool.false_eq_true, if_false]
        by_cases h4 : is_rows_label_key key
        · simp [h4]
        · simp only [h4, Bool.false_eq_true, if_false]
          by_cases h5 : is_exact_dynamic_row_pattern key
          · simp [h5]
          · simp only [h5, Bool.false_eq_true, if_false]
            by_cases h6 : is_content_type_key key
            · simp [h6]
            · simp only [h6, Bool.false_eq_true, if_false]
              cases ho : o v with
              | none => simp
              | some t =>
                by_cases ht : t = ""
                · simp [ht]
                · simp only [ht, Bool.false_eq_true, if_false]
                  intro hmem
                  simp at hmem
                  exact hmem

theorem gemStep_callsOwn (o : Oracle) : StepCallsOwn (gemStep o) := by
  intro m kv k
  obtain ⟨key, v⟩ := kv
  simp only [gemStep]
  by_cases h1 : mapMem m key
  · simp [h1]
  · simp only [h1, Bool.false_eq_true, if_false]
    by_cases h2 : is_exact_dynamic_row_pattern key
    · simp [h2]
    · simp only [h2, Bool.false_eq_true, if_false]
      by_cases h3 : is_placeholder_text v
      · simp [h3]
      · simp only [h3, Bool.false_eq_true, if_false]
        by_cases h4 : is_content_type_key key
        · simp [h4]
        · simp only [h4, Bool.false_eq_true, if_false]
          cases ho : o v with
          | none => simp
          | some t =>
            by_cases ht : t = ""
            · simp [ht]
            · simp only [ht, Bool.false_eq_true, if_false]
              intro hmem
              simp at hmem
              exact hmem

theorem runLoop_calls (step : Mapping → String × String → Mapping × List Event)
    (hstep : StepCallsOwn step) :
    ∀ (entries : List (String × String)) (m : Mapping) (k : String),
      Event.extCall k ∈ (runLoop step entries m).2 → k ∈ entries.map Prod.fst := by
  intro entries
  induction entries with
  | nil => intro m k h; exact absurd h (by simp [runLoop])
  | cons kv rest ih =>
    intro m k h
    rw [runLoop_cons] at h
    simp only [List.mem_append] at h
    rcases h with h | h
    · simp [hstep m kv k h]
    · simp only [List.map_cons, List.mem_cons]
      exact Or.inr (ih (step m kv).1 k h)

/-- C2 confirmed: when the translated mapping holds exactly the first K
of N source keys (0 < K < N, keys distinct), `start_index` is exactly K
in both scripts, the loop runs over the entries from K on, and no
external call is issued for any key among the first K; an empty
translated mapping resumes at 0; and in general the resume index is the
position after the translated mapping's last key whenever that key
occurs in the source key order. -/
theorem C2_resume (base : List (String × String)) (m : Mapping) (K : Nat)
    (o1 o2 : Oracle)
    (hnodup : (base.map Prod.fst).Nodup)
    (hK0 : 0 < K) (hKN : K < base.length)
    (hm : m.map Prod.fst = (base.map Prod.fst).take K) :
    computeStartIndex (base.map Prod.fst) (m.map Prod.fst) = K ∧
    runScript (gptStep o1) base m = some (runLoop (gptStep o1) (base.drop K) m) ∧
    runScript (gemStep o2) base m = some (runLoop (gemStep o2) (base.drop K) m) ∧
    (∀ k ∈ (base.map Prod.fst).take K,
      Event.extCall k ∉ (runLoop (gptStep o1) (base.drop K) m).2) ∧
    (∀ k ∈ (base.map Prod.fst).take K,
      Event.extCall k ∉ (runLoop (gemStep o2) (base.drop K) m).2) ∧
    (∀ bk : List String, computeStartIndex bk [] = 0) ∧
    (∀ (bk tk : List String) (last : String),
      tk.getLast? = some last → last ∈ bk →
      computeStartIndex bk tk = idxOfKey bk last + 1) := by
  have hlenbk : (base.map Prod.fst).length = base.length := List.length_map ..
  have hKbk : K ≤ (base.map Prod.fst).length := by omega
  have hK1 : K - 1 < K := by omega
  have hK1bk : K - 1 < (base.map Prod.fst).length := by omega
  have htk_last : (m.map Prod.fst).getLast? =
      some ((base.map Prod.fst).get ⟨K - 1, hK1bk⟩) := by
    rw [hm, List.getLast?_eq_getElem? ((base.map Prod.fst).take K),
      List.length_take_of_le hKbk, List.getElem?_take, if_pos hK1,
      List.getElem?_eq_getElem hK1bk]
    simp [List.get_eq_getElem]
  have hlast_mem : (base.map Prod.fst).get ⟨K - 1, hK1bk⟩ ∈ base.map Prod.fst :=
    (base.map Prod.fst).get_mem (K - 1) hK1bk
  have hstart : computeStartIndex (base.map Prod.fst) (m.map Prod.fst) = K := by
    simp only [computeStartIndex]
    rw [htk_last]
    simp only [if_pos hlast_mem]
    rw [idxOfKey_getElem (base.map Prod.fst) hnodup (K - 1) hK1bk]
    omega
  have hN1 : (base.map Prod.fst).length - 1 < (base.map Prod.fst).length := by omega
  have hbk_last : (base.map Prod.fst).getLast? =
      some ((base.map Prod.fst).get ⟨(base.map Prod.fst).length - 1, hN1⟩) := by
    rw [List.getLast?_eq_getElem? (base.map Prod.fst), List.getElem?_eq_getElem hN1]
    simp [List.get_eq_getElem]
  have hdisj : List.Disjoint ((base.map Prod.fst).take K) ((base.map Prod.fst).drop K) :=
    List.disjoint_take_drop hnodup le_rfl
  have hlastN_in_drop :
      (base.map Prod.fst).get ⟨(base.map Prod.fst).length - 1, hN1⟩ ∈
        (base.map Prod.fst).drop K := by
    have hj : (base.map Prod.fst).length - 1 - K < ((base.map Prod.fst).drop K).length := by
      rw [List.length_drop]
      omega
    have heq : ((base.map Prod.fst).drop K).get ⟨(base.map Prod.fst).length - 1 - K, hj⟩ =
        (base.map Prod.fst).get ⟨(base.map Prod.fst).length - 1, hN1⟩ := by
      simp only [List.get_eq_getElem, List.getElem_drop]
      congr 1
      omega
    rw [← heq]
    exact ((base.map Prod.fst).drop K).get_mem _ hj
  have hnot_in_take :
      (base.map Prod.fst).get ⟨(base.map Prod.fst).length - 1, hN1⟩ ∉ m.map Prod.fst := by
    rw [hm]
    intro hmem
    exact hdisj hmem hlastN_in_drop
  have hne : m.map Prod.fst ≠ [] := by
    intro h
    have := congrArg List.length hm
    rw [h, List.length_take_of_le hKbk] at this
    simp at this
    omega
  have hempty : (m.map Prod.fst).isEmpty = false := by
    rw [← Bool.not_eq_true, List.isEmpty_iff]
    exact hne
  have hscript : ∀ step, runScript step base m = some (runLoop step (base.drop K) m) := by
    intro step
    simp only [runScript, hempty, Bool.false_eq_true, if_false, hbk_last]
    rw [if_neg hnot_in_take, hstart]
  have hnocall : ∀ (step : Mapping → String × String → Mapping × List Event),
      StepCallsOwn step → ∀ k, k ∈ (base.map Prod.fst).take K →
      Event.extCall k ∉ (runLoop step (base.drop K) m).2 := by
    intro step hso k hk hmem
    have hcall := runLoop_calls step hso (base.drop K) m k hmem
    rw [List.map_drop] at hcall
    exact hdisj hk hcall
  refine ⟨hstart, hscript _, hscript _,
    fun k hk => hnocall _ (gptStep_callsOwn o1) k hk,
    fun k hk => hnocall _ (gemStep_callsOwn o2) k hk,
    fun _ => rfl, ?_⟩
  intro bk tk last hlast hmem
  simp only [computeStartIndex, hlast]
  rw [if_pos hmem]

/-- Witness for C2 at a concrete three-entry source mapping with the
first two keys already translated. -/
theorem C2_resume_witness :
    0 < 2 ∧ 2 < ([("k1", "v1"), ("k2", "v2"), ("k3", "v3")] : List (String × String)).length ∧
    ([("k1", "t1"), ("k2", "t2")] : Mapping).map Prod.fst =
      (([("k1", "v1"), ("k2", "v2"), ("k3", "v3")] : List (String × String)).map Prod.fst).take 2 ∧
    computeStartIndex
      (([("k1", "v1"), ("k2", "v2"), ("k3", "v3")] : List (String × String)).map Prod.fst)
      (([("k1", "t1"), ("k2", "t2")] : Mapping).map Prod.fst) = 2 :=
  ⟨by decide, by decide, by decide,
    (C2_resume [("k1", "v1"), ("k2", "v2"), ("k3", "v3")] [("k1", "t1"), ("k2", "t2")] 2
      oracleT oracleT (by decide) (by decide) (by decide) (by decide)).1⟩

/-! ## Suffix-predicate interaction lemmas -/

theorem dropPre_sound : ∀ (l p r : List Char), dropPre l p = some r → isPre p l = true := by
  intro l p
  induction p generalizing l with
  | nil => intro r _; rfl
  | cons c cs ih =>
    intro r h
    cases l with
    | nil => exact absurd h (by simp [dropPre])
    | cons x xs =>
      simp only [dropPre] at h
      by_cases hc : c = x
      · simp only [isPre, hc]
        simp only [hc, if_pos rfl] at h
        simpa using ih xs r h
      · rw [if_neg hc] at h
        cases h

theorem isPre_isPre_le : ∀ (l p q : List Char), isPre p l = true → isPre q l = true →
    p.length ≤ q.length → isPre p q = true := by
  intro l
  induction l with
  | nil =>
    intro p q hp hq _
    cases p with
    | nil => rfl
    | cons c cs => exact absurd hp (by simp [isPre])
  | cons x xs ih =>
    intro p q hp hq hle
    cases p with
    | nil => rfl
    | cons a as =>
      cases q with
      | nil => exact absurd hle (by simp)
      | cons b bs =>
        simp only [isPre, Bool.and_eq_true, decide_eq_true_eq] at hp hq ⊢
        refine ⟨hp.1.trans hq.1.symm, ?_⟩
        exact ih as bs hp.2 hq.2 (by simpa using hle)

/-- Two suffix checks on the same key whose patterns are incompatible
(the shorter reversed pattern is not a prefix of the longer) cannot both
hold. -/
theorem suffix_clash (k : String) (p q : List Char)
    (hp : isPre p k.data.reverse = true) (hq : isPre q k.data.reverse = true)
    (hle : p.length ≤ q.length) (hf : isPre p q = false) : False := by
  rw [isPre_isPre_le k.data.reverse p q hp hq hle] at hf
  cases hf

theorem content_type_not_dnd (k : String) (h : is_content_type_key k = true) :
    is_dnd_area_label_key k = false := by
  by_contra hd
  rw [Bool.not_eq_false] at hd
  exact suffix_clash k (".content_type".data.reverse) ("dnd_area.label".data.reverse)
    h hd (by decide) (by decide)

theorem content_type_not_rows (k : String) (h : is_content_type_key k = true) :
    is_rows_label_key k = false := by
  by_contra hd
  rw [Bool.not_eq_false] at hd
  exact suffix_clash k (".content_type".data.reverse) ("0.rows[0].0.label".data.reverse)
    h hd (by decide) (by decide)

theorem content_type_not_dyn (k : String) (h : is_content_type_key k = true) :
    is_exact_dynamic_row_pattern k = false := by
  by_contra hd
  rw [Bool.not_eq_false] at hd
  simp only [is_exact_dynamic_row_pattern] at hd
  cases hrest : dropPre k.data.reverse ("].0.rows[0].0.label".data.reverse) with
  | none => rw [hrest] at hd; cases hd
  | some rest =>
    have hpre := dropPre_sound _ _ _ hrest
    exact suffix_clash k (".content_type".data.reverse)
      ("].0.rows[0].0.label".data.reverse) h hpre (by decide) (by decide)

theorem rows_label_not_dnd (k : String) (h : is_rows_label_key k = true) :
    is_dnd_area_label_key k = false := by
  by_contra hd
  rw [Bool.not_eq_false] at hd
  exact suffix_clash k ("dnd_area.label".data.reverse) ("0.rows[0].0.label".data.reverse)
    hd h (by decide) (by decide)

/-! ## Step behaviour lemmas for the two checkpoint loops -/

theorem mapMem_insertAssoc (m : Mapping) (k k2 : String) (t : String) :
    mapMem (insertAssoc m k2 t) k = (mapMem m k || decide (k2 = k)) := by
  induction m with
  | nil => simp [insertAssoc, mapMem]
  | cons hd tl ih =>
    cases hd with
    | mk ka va =>
      by_cases hk : ka = k2
      · subst hk
        simp only [insertAssoc, if_pos rfl, mapMem, List.any_cons]
        by_cases hkk : ka = k
        · simp [hkk]
        · simp [hkk]
      · simp only [insertAssoc, if_neg hk, mapMem, List.any_cons] at *
        rw [ih]
        cases hkk : (decide (ka = k)) <;> simp

/-- A step leaves the mapping alone or inserts at its own key. -/
def StepKeysOwn (step : Mapping → String × String → Mapping × List Event) : Prop :=
  ∀ m kv, (step m kv).1 = m ∨ ∃ t, (step m kv).1 = insertAssoc m kv.1 t

theorem gptStep_keysOwn (o : Oracle) : StepKeysOwn (gptStep o) := by
  intro m kv
  obtain ⟨k, v⟩ := kv
  simp only [gptStep]
  by_cases h1 : mapMem m k
  · simp [h1]
  · simp only [h1, Bool.false_eq_true, if_false]
    by_cases h2 : is_placeholder_text v
    · simp [h2]
    · simp only [h2, Bool.false_eq_true, if_false]
      by_cases h3 : is_dnd_area_label_key k
      · simp only [h3, if_true]
        exact Or.inr ⟨v, rfl⟩
      · simp only [h3, Bool.false_eq_true, if_false]
        by_cases h4 : is_rows_label_key k
        · simp only [h4, if_true]
          exact Or.inr ⟨v, rfl⟩
        · simp only [h4, Bool.false_eq_true, if_false]
          by_cases h5 : is_exact_dynamic_row_pattern k
          · simp [h5]
          · simp only [h5, Bool.false_eq_true, if_false]
            by_cases h6 : is_content_type_key k
            · simp only [h6, if_true]
              exact Or.inr ⟨v, rfl⟩
            · simp only [h6, Bool.false_eq_true, if_false]
              cases ho : o v with
              | none => simp
              | some t =>
                by_cases ht : t = ""
                · simp [ht]
                · simp only [ht, Bool.false_eq_true, if_false]
                  exact Or.inr ⟨t, rfl⟩

theorem gemStep_keysOwn (o : Oracle) : StepKeysOwn (gemStep o) := by
  intro m kv
  obtain ⟨k, v⟩ := kv
  simp only [gemStep]
  by_cases h1 : mapMem m k
  · simp [h1]
  · simp only [h1, Bool.false_eq_true, if_false]
    by_cases h2 : is_exact_dynamic_row_pattern k
    · simp [h2]
    · simp only [h2, Bool.false_eq_true, if_false]
      by_cases h3 : is_placeholder_text v
      · simp [h3]
      · simp only [h3, Bool.false_eq_true, if_false]
        by_cases h4 : is_content_type_key k
        · simp only [h4, if_true]
          exact Or.inr ⟨v, rfl⟩
        · simp only [h4, Bool.false_eq_true, if_false]
          cases ho : o v with
          | none => simp
          | some t =>
            by_cases ht : t = ""
            · simp [ht]
            · simp only [ht, Bool.false_eq_true, if_false]
              exact Or.inr ⟨t, rfl⟩

theorem gptStep_ct_copy (o : Oracle) (m : Mapping) (k v : String)
    (hmem : mapMem m k = false) (hct : is_content_type_key k = true)
    (hpl : is_placeholder_text v = false) :
    gptStep o m (k, v) = (insertAssoc m k v, [.save (insertAssoc m k v)]) := by
  simp [gptStep, hmem, hpl, content_type_not_dnd k hct, content_type_not_rows k hct,
    content_type_not_dyn k hct, hct]

theorem gemStep_ct_copy (o : Oracle) (m : Mapping) (k v : String)
    (hmem : mapMem m k = false) (hct : is_content_type_key k = true)
    (hpl : is_placeholder_text v = false) :
    gemStep o m (k, v) = (insertAssoc m k v, [.save (insertAssoc m k v)]) := by
  simp [gemStep, hmem, hpl, content_type_not_dyn k hct, hct]

/-! ## Tracking one entry through a loop run (C7) -/

theorem runLoop_untouched (step : Mapping → String × String → Mapping × List Event)
    (hko : StepKeysOwn step) (hco : StepCallsOwn step) :
    ∀ (entries : List (String × String)) (m : Mapping) (k : String),
      k ∉ entries.map Prod.fst →
      mapGet (runLoop step entries m).1 k = mapGet m k ∧
      mapMem (runLoop step entries m).1 k = mapMem m k ∧
      Event.extCall k ∉ (runLoop step entries m).2 := by
  intro entries
  induction entries with
  | nil => intro m k _; exact ⟨rfl, rfl, by simp [runLoop]⟩
  | cons kv rest ih =>
    intro m k hk
    simp only [List.map_cons, List.mem_cons, not_or] at hk
    rw [runLoop_cons]
    have hstep : mapGet (step m kv).1 k = mapGet m k ∧ mapMem (step m kv).1 k = mapMem m k := by
      rcases hko m kv with he | ⟨t, he⟩
      · rw [he]; exact ⟨rfl, rfl⟩
      · rw [he]
        refine ⟨mapGet_insertAssoc_ne m kv.1 k t hk.1, ?_⟩
        rw [mapMem_insertAssoc]
        have : decide (kv.1 = k) = false := by
          simp only [decide_eq_false_iff_not]
          exact fun hh => hk.1 hh.symm
        rw [this]
        simp
    obtain ⟨ht1, ht2, ht3⟩ := ih (step m kv).1 k hk.2
    refine ⟨ht1.trans hstep.1, ht2.trans hstep.2, ?_⟩
    intro hmem
    simp only [List.mem_append] at hmem
    rcases hmem with hmem | hmem
    · exact hk.1 (hco m kv k hmem)
    · exact ht3 hmem

theorem runLoop_copy_entry (step : Mapping → String × String → Mapping × List Event)
    (hko : StepKeysOwn step) (hco : StepCallsOwn step) (k v : String)
    (hcopy : ∀ m', mapMem m' k = false →
      step m' (k, v) = (insertAssoc m' k v, [.save (insertAssoc m' k v)])) :
    ∀ (entries : List (String × String)) (m : Mapping),
      (entries.map Prod.fst).Nodup → (k, v) ∈ entries → mapMem m k = false →
      mapGet (runLoop step entries m).1 k = some v ∧
      Event.extCall k ∉ (runLoop step entries m).2 := by
  intro entries
  induction entries with
  | nil => intro m _ hmem _; exact absurd hmem (by simp)
  | cons kv rest ih =>
    intro m hnd hmem hfresh
    have hnd' : (rest.map Prod.fst).Nodup := (List.nodup_cons.mp (by simpa using hnd)).2
    have hhd : kv.1 ∉ rest.map Prod.fst := (List.nodup_cons.mp (by simpa using hnd)).1
    rw [runLoop_cons]
    rcases List.mem_cons.mp hmem with hh | hh
    · -- the entry is the head: copied here, untouched afterwards
      have hk : k ∉ rest.map Prod.fst := by
        rw [← hh] at hhd
        exact hhd
      have hstep := hcopy m hfresh
      rw [← hh, hstep]
      obtain ⟨hu1, _, hu3⟩ :=
        runLoop_untouched step hko hco rest (insertAssoc m k v) k hk
      refine ⟨hu1.trans (mapGet_insertAssoc_self m k v), ?_⟩
      intro habs
      simp only [List.mem_append] at habs
      rcases habs with habs | habs
      · simp at habs
      · exact hu3 habs
    · -- the entry sits in the tail
      have hne : kv.1 ≠ k := by
        intro he
        apply hhd
        rw [he]
        exact List.mem_map.mpr ⟨(k, v), hh, rfl⟩
      have hfresh' : mapMem (step m kv).1 k = false := by
        rcases hko m kv with he | ⟨t, he⟩
        · rw [he]; exact hfresh
        · rw [he, mapMem_insertAssoc, hfresh]
          simp [hne]
      obtain ⟨hr1, hr2⟩ := ih (step m kv).1 hnd' hh hfresh'
      refine ⟨hr1, ?_⟩
      intro habs
      simp only [List.mem_append] at habs
      rcases habs with habs | habs
      · exact hne (hco m kv k habs).symm
      · exact hr2 habs

/-- C7 amended: a source entry whose key ends in `.content_type` and
whose value is not Lorem-ipsum placeholder text, in a run of either
script from an empty translated mapping, never triggers an external
translation call and ends up in the final translated mapping with its
original value; when the value is placeholder text the entry is instead
skipped outright (see the counterexample). -/
theorem C7_passthrough (base : List (String × String)) (k v : String)
    (o1 o2 : Oracle)
    (hnodup : (base.map Prod.fst).Nodup) (hmem : (k, v) ∈ base)
    (hct : is_content_type_key k = true) (hpl : is_placeholder_text v = false) :
    runScript (gptStep o1) base [] = some (runLoop (gptStep o1) base []) ∧
    runScript (gemStep o2) base [] = some (runLoop (gemStep o2) base []) ∧
    mapGet (runLoop (gptStep o1) base []).1 k = some v ∧
    Event.extCall k ∉ (runLoop (gptStep o1) base []).2 ∧
    mapGet (runLoop (gemStep o2) base []).1 k = some v ∧
    Event.extCall k ∉ (runLoop (gemStep o2) base []).2 := by
  obtain ⟨hg1, hg2⟩ := runLoop_copy_entry (gptStep o1) (gptStep_keysOwn o1)
    (gptStep_callsOwn o1) k v (fun m' hm' => gptStep_ct_copy o1 m' k v hm' hct hpl)
    base [] hnodup hmem rfl
  obtain ⟨hm1, hm2⟩ := runLoop_copy_entry (gemStep o2) (gemStep_keysOwn o2)
    (gemStep_callsOwn o2) k v (fun m' hm' => gemStep_ct_copy o2 m' k v hm' hct hpl)
    base [] hnodup hmem rfl
  exact ⟨rfl, rfl, hg1, hg2, hm1, hm2⟩

/-- Witness for C7 amended on a two-entry source mapping whose second
entry is a content-type marker. -/
theorem C7_passthrough_witness :
    ((([("root.a.title", "Hello"), ("root.a.content_type", "module")] :
        List (String × String)).map Prod.fst).Nodup ∧
      is_content_type_key "root.a.content_type" = true ∧
      is_placeholder_text "module" = false) ∧
    mapGet (runLoop (gptStep oracleT)
      [("root.a.title", "Hello"), ("root.a.content_type", "module")] []).1
      "root.a.content_type" = some "module" :=
  ⟨⟨by decide, by decide, by decide⟩,
    (C7_passthrough [("root.a.title", "Hello"), ("root.a.content_type", "module")]
      "root.a.content_type" "module" oracleT oracleT (by decide) (by decide)
      (by decide) (by decide)).2.2.1⟩

/-! ## Full-run characterisation of the loops (C5) -/

theorem gptStep_memSkip (o : Oracle) (m : Mapping) (kv : String × String)
    (h : mapMem m kv.1 = true) : gptStep o m kv = (m, []) := by
  obtain ⟨k, v⟩ := kv
  simp only at h
  simp [gptStep, h]

theorem gemStep_memSkip (o : Oracle) (m : Mapping) (kv : String × String)
    (h : mapMem m kv.1 = true) : gemStep o m kv = (m, []) := by
  obtain ⟨k, v⟩ := kv
  simp only at h
  simp [gemStep, h]

theorem gptStep_noStore (o : Oracle) (m : Mapping) (kv : String × String)
    (hmem : mapMem m kv.1 = false) (hs : gptStores kv = false) :
    gptStep o m kv = (m, []) := by
  obtain ⟨k, v⟩ := kv
  simp only at hmem
  cases hpl : is_placeholder_text v with
  | true => simp [gptStep, hmem, hpl]
  | false =>
    cases hdnd : is_dnd_area_label_key k with
    | true => exact absurd hs (by simp [gptStores, hpl, hdnd])
    | false =>
      cases hrows : is_rows_label_key k with
      | true => exact absurd hs (by simp [gptStores, hpl, hrows])
      | false =>
        cases hdyn : is_exact_dynamic_row_pattern k with
        | true => simp [gptStep, hmem, hpl, hdnd, hrows, hdyn]
        | false => exact absurd hs (by simp [gptStores, hpl, hdnd, hrows, hdyn])

theorem gemStep_noStore (o : Oracle) (m : Mapping) (kv : String × String)
    (hmem : mapMem m kv.1 = false) (hs : gemStores kv = false) :
    gemStep o m kv = (m, []) := by
  obtain ⟨k, v⟩ := kv
  simp only at hmem
  cases hdyn : is_exact_dynamic_row_pattern k with
  | true => simp [gemStep, hmem, hdyn]
  | false =>
    cases hpl : is_placeholder_text v with
    | true => simp [gemStep, hmem, hdyn, hpl]
    | false => exact absurd hs (by simp [gemStores, hdyn, hpl])

theorem gptStep_insert (o : Oracle) (ho : OracleTotal o) (m : Mapping)
    (kv : String × String) (hmem : mapMem m kv.1 = false) (hs : gptStores kv = true) :
    ∃ t, (gptStep o m kv).1 = insertAssoc m kv.1 t := by
  obtain ⟨k, v⟩ := kv
  simp only at hmem ⊢
  have hpl : is_placeholder_text v = false := by
    cases hpl : is_placeholder_text v with
    | false => rfl
    | true => exact absurd hs (by simp [gptStores, hpl])
  simp only [gptStep, hmem, Bool.false_eq_true, if_false, hpl]
  cases hdnd : is_dnd_area_label_key k with
  | true =>
    simp only [if_true]
    exact ⟨v, rfl⟩
  | false =>
    simp only [Bool.false_eq_true, if_false]
    cases hrows : is_rows_label_key k with
    | true =>
      simp only [if_true]
      exact ⟨v, rfl⟩
    | false =>
      simp only [Bool.false_eq_true, if_false]
      have hdyn : is_exact_dynamic_row_pattern k = false := by
        cases hdyn : is_exact_dynamic_row_pattern k with
        | false => rfl
        | true => exact absurd hs (by simp [gptStores, hpl, hdnd, hrows, hdyn])
      simp only [hdyn, Bool.false_eq_true, if_false]
      cases hct : is_content_type_key k with
      | true =>
        simp only [if_true]
        exact ⟨v, rfl⟩
      | false =>
        simp only [Bool.false_eq_true, if_false]
        obtain ⟨t, hot, hne⟩ := ho v
        rw [hot]
        simp only [hne, Bool.false_eq_true, if_false]
        exact ⟨t, rfl⟩

theorem gemStep_insert (o : Oracle) (ho : OracleTotal o) (m : Mapping)
    (kv : String × String) (hmem : mapMem m kv.1 = false) (hs : gemStores kv = true) :
    ∃ t, (gemStep o m kv).1 = insertAssoc m kv.1 t := by
  obtain ⟨k, v⟩ := kv
  simp only at hmem ⊢
  have hdyn : is_exact_dynamic_row_pattern k = false := by
    cases hdyn : is_exact_dynamic_row_pattern k with
    | false => rfl
    | true => exact absurd hs (by simp [gemStores, hdyn])
  have hpl : is_placeholder_text v = false := by
    cases hpl : is_placeholder_text v with
    | false => rfl
    | true => exact absurd hs (by simp [gemStores, hpl])
  simp only [gemStep, hmem, Bool.false_eq_true, if_false, hdyn, hpl]
  cases hct : is_content_type_key k with
  | true =>
    simp only [if_true]
    exact ⟨v, rfl⟩
  | false =>
    simp only [Bool.false_eq_true, if_false]
    obtain ⟨t, hot, hne⟩ := ho v
    rw [hot]
    simp only [hne, Bool.false_eq_true, if_false]
    exact ⟨t, rfl⟩

/-- Keys materialised by a loop run over entries none of which are
already present: exactly the stored entries, in order, appended to the
initial keys. -/
theorem runLoop_keys (step : Mapping → String × String → Mapping × List Event)
    (stores : String × String → Bool)
    (_hmemskip : ∀ m kv, mapMem m kv.1 = true → step m kv = (m, []))
    (hnostore : ∀ m kv, mapMem m kv.1 = false → stores kv = false → step m kv = (m, []))
    (hinsert : ∀ m kv, mapMem m kv.1 = false → stores kv = true →
      ∃ t, (step m kv).1 = insertAssoc m kv.1 t) :
    ∀ (entries : List (String × String)) (m : Mapping),
      (entries.map Prod.fst).Nodup →
      (∀ kv ∈ entries, mapMem m kv.1 = false) →
      (runLoop step entries m).1.map Prod.fst =
        m.map Prod.fst ++ (entries.filter stores).map Prod.fst := by
  intro entries
  induction entries with
  | nil => intro m _ _; simp [runLoop]
  | cons kv rest ih =>
    intro m hnd hfresh
    have hnd' : (rest.map Prod.fst).Nodup := (List.nodup_cons.mp (by simpa using hnd)).2
    have hhd : kv.1 ∉ rest.map Prod.fst := (List.nodup_cons.mp (by simpa using hnd)).1
    have hkv : mapMem m kv.1 = false := hfresh kv (by simp)
    rw [runLoop_cons]
    by_cases hs : stores kv
    · obtain ⟨t, ht⟩ := hinsert m kv hkv hs
      have hfresh' : ∀ kv2 ∈ rest, mapMem (step m kv).1 kv2.1 = false := by
        intro kv2 h2
        rw [ht, mapMem_insertAssoc, hfresh kv2 (by simp [h2])]
        have : decide (kv.1 = kv2.1) = false := by
          simp only [decide_eq_false_iff_not]
          intro he
          exact hhd (he ▸ List.mem_map.mpr ⟨kv2, h2, rfl⟩)
        rw [this]
        rfl
      have := ih (step m kv).1 hnd' hfresh'
      simp only at this
      rw [this, ht, keys_insertAssoc_fresh m kv.1 t hkv]
      simp [List.filter_cons, hs]
    · have hstep := hnostore m kv hkv (by simpa using hs)
      rw [hstep]
      have := ih m hnd' (fun kv2 h2 => hfresh kv2 (by simp [h2]))
      simp only at this
      rw [this]
      simp [List.filter_cons, hs]

/-- A loop run in which every entry is either already translated or not
storable does nothing and emits no event. -/
theorem runLoop_noop (step : Mapping → String × String → Mapping × List Event)
    (stores : String × String → Bool)
    (hmemskip : ∀ m kv, mapMem m kv.1 = true → step m kv = (m, []))
    (hnostore : ∀ m kv, mapMem m kv.1 = false → stores kv = false → step m kv = (m, [])) :
    ∀ (entries : List (String × String)) (m : Mapping),
      (∀ kv ∈ entries, mapMem m kv.1 = true ∨ stores kv = false) →
      runLoop step entries m = (m, []) := by
  intro entries
  induction entries with
  | nil => intro m _; rfl
  | cons kv rest ih =>
    intro m hall
    have hstep : step m kv = (m, []) := by
      rcases hall kv (by simp) with h | h
      · exact hmemskip m kv h
      · cases hm : mapMem m kv.1 with
        | true => exact hmemskip m kv hm
        | false => exact hnostore m kv hm h
    rw [runLoop_cons, hstep]
    simp only
    rw [ih m (fun kv2 h2 => hall kv2 (by simp [h2]))]
    rfl

/-- A second invocation of either script over an unchanged source, given
a translated mapping that already covers everything storable, exits (or
loops) without a single event and without touching the mapping. -/
theorem runScript_second (step : Mapping → String × String → Mapping × List Event)
    (stores : String × String → Bool)
    (hmemskip : ∀ m kv, mapMem m kv.1 = true → step m kv = (m, []))
    (hnostore : ∀ m kv, mapMem m kv.1 = false → stores kv = false → step m kv = (m, []))
    (base : List (String × String)) (m1 : Mapping)
    (hsub : ∀ k ∈ m1.map Prod.fst, k ∈ base.map Prod.fst)
    (hcover : ∀ kv ∈ base, mapMem m1 kv.1 = true ∨ stores kv = false) :
    runScript step base m1 = some (m1, []) := by
  simp only [runScript]
  cases hempty : (m1.map Prod.fst).isEmpty with
  | true =>
    simp only [if_true]
    rw [runLoop_noop step stores hmemskip hnostore base m1 hcover]
  | false =>
    simp only [Bool.false_eq_true, if_false]
    cases hlast : (base.map Prod.fst).getLast? with
    | none =>
      exfalso
      have hbase : base.map Prod.fst = [] := List.getLast?_eq_none_iff.mp hlast
      have hm1 : m1.map Prod.fst ≠ [] := by
        intro h
        rw [h] at hempty
        simp at hempty
      cases hm : m1.map Prod.fst with
      | nil => exact hm1 hm
      | cons x xs =>
        have : x ∈ base.map Prod.fst := hsub x (by simp [hm])
        rw [hbase] at this
        simp at this
    | some lastBase =>
      by_cases hin : lastBase ∈ m1.map Prod.fst
      · simp [hin]
      · simp only [hin, if_false]
        rw [runLoop_noop step stores hmemskip hnostore _ m1
          (fun kv h2 => hcover kv (List.mem_of_mem_drop h2))]

/-- C5 amended: after a complete first run from an empty translated
mapping, with distinct source keys and a backend whose calls all return
non-empty text, a second run of the same script performs no external
call and changes nothing — it returns the same mapping with an empty
event trace (exiting early when the last source key was stored, and
otherwise re-iterating only skip-type entries).  The counterexample
shows the resume index still need not equal the end of the key list. -/
theorem C5_idempotent (base : List (String × String)) (o1 o2 : Oracle)
    (hnodup : (base.map Prod.fst).Nodup)
    (ho1 : OracleTotal o1) (ho2 : OracleTotal o2) :
    runScript (gptStep o1) base ((runLoop (gptStep o1) base []).1) =
      some ((runLoop (gptStep o1) base []).1, []) ∧
    runScript (gemStep o2) base ((runLoop (gemStep o2) base []).1) =
      some ((runLoop (gemStep o2) base []).1, []) := by
  constructor
  · have hkeys := runLoop_keys (gptStep o1) gptStores (gptStep_memSkip o1)
      (gptStep_noStore o1) (gptStep_insert o1 ho1) base [] hnodup (fun kv _ => rfl)
    simp only [List.map_nil, List.nil_append] at hkeys
    refine runScript_second (gptStep o1) gptStores (gptStep_memSkip o1)
      (gptStep_noStore o1) base _ ?_ ?_
    · intro k hk
      rw [hkeys] at hk
      obtain ⟨kv, hkv, he⟩ := List.mem_map.mp hk
      exact he ▸ List.mem_map.mpr ⟨kv, (List.mem_filter.mp hkv).1, rfl⟩
    · intro kv hkv
      cases hs : gptStores kv with
      | false => exact Or.inr rfl
      | true =>
        left
        rw [mapMem_iff_mem_keys, hkeys]
        exact List.mem_map.mpr ⟨kv, List.mem_filter.mpr ⟨hkv, hs⟩, rfl⟩
  · have hkeys := runLoop_keys (gemStep o2) gemStores (gemStep_memSkip o2)
      (gemStep_noStore o2) (gemStep_insert o2 ho2) base [] hnodup (fun kv _ => rfl)
    simp only [List.map_nil, List.nil_append] at hkeys
    refine runScript_second (gemStep o2) gemStores (gemStep_memSkip o2)
      (gemStep_noStore o2) base _ ?_ ?_
    · intro k hk
      rw [hkeys] at hk
      obtain ⟨kv, hkv, he⟩ := List.mem_map.mp hk
      exact he ▸ List.mem_map.mpr ⟨kv, (List.mem_filter.mp hkv).1, rfl⟩
    · intro kv hkv
      cases hs : gemStores kv with
      | false => exact Or.inr rfl
      | true =>
        left
        rw [mapMem_iff_mem_keys, hkeys]
        exact List.mem_map.mpr ⟨kv, List.mem_filter.mpr ⟨hkv, hs⟩, rfl⟩

/-- Witness for C5 amended on a concrete two-entry source with a total
uppercase-like oracle. -/
theorem C5_idempotent_witness :
    ((([("root.a.title", "Hello"), ("root.b.text", "World")] :
        List (String × String)).map Prod.fst).Nodup) ∧
    runScript (gptStep oracleT)
      [("root.a.title", "Hello"), ("root.b.text", "World")]
      ((runLoop (gptStep oracleT)
        [("root.a.title", "Hello"), ("root.b.text", "World")] []).1) =
      some ((runLoop (gptStep oracleT)
        [("root.a.title", "Hello"), ("root.b.text", "World")] []).1, []) :=
  ⟨by decide,
    (C5_idempotent [("root.a.title", "Hello"), ("root.b.text", "World")]
      oracleT oracleT (by decide)
      (fun v => ⟨"T" ++ v, rfl, fun h => by
        have h2 := congrArg String.data h
        rw [String.data_append] at h2
        simp at h2⟩)
      (fun v => ⟨"T" ++ v, rfl, fun h => by
        have h2 := congrArg String.data h
        rw [String.data_append] at h2
        simp at h2⟩)).1⟩

/-! ## Totality of update_nested_field on digit-bracket paths (C10) -/

theorem digit_not_space (c : Char) (h : c.isDigit = true) : isPySpace c = false := by
  by_contra hs
  rw [Bool.not_eq_false] at hs
  simp only [isPySpace, Bool.or_eq_true, decide_eq_true_eq] at hs
  rcases hs with ((((rfl | rfl) | rfl) | rfl) | rfl) | rfl <;> exact absurd h (by decide)

theorem dropWhile_noSpace (xs : List Char) (h : ∀ c ∈ xs, isPySpace c = false) :
    xs.dropWhile isPySpace = xs := by
  cases xs with
  | nil => rfl
  | cons c cs =>
    rw [List.dropWhile_cons_of_neg]
    simp [h c (by simp)]

theorem stripChars_noSpace (l : List Char) (h : ∀ c ∈ l, isPySpace c = false) :
    stripChars l = l := by
  simp only [stripChars]
  rw [dropWhile_noSpace l h,
    dropWhile_noSpace l.reverse (fun c hc => h c (List.mem_reverse.mp hc)),
    List.reverse_reverse]

theorem pyInt_digits (ds : List Char) (hne : ds ≠ [])
    (hdig : ds.all Char.isDigit = true) : pyInt? ds = some (Int.ofNat (valDigits ds)) := by
  cases ds with
  | nil => exact absurd rfl hne
  | cons c rest =>
    have hall : ∀ x ∈ c :: rest, Char.isDigit x = true := by
      intro x hx
      exact List.all_eq_true.mp hdig x hx
    have hstrip : stripChars (c :: rest) = c :: rest :=
      stripChars_noSpace _ (fun x hx => digit_not_space x (hall x hx))
    have hc : c.isDigit = true := hall c (by simp)
    have hcm : c ≠ '-' := by
      intro he
      rw [he] at hc
      exact absurd hc (by decide)
    have hcp : c ≠ '+' := by
      intro he
      rw [he] at hc
      exact absurd hc (by decide)
    simp only [pyInt?, hstrip]
    rw [if_neg hcm, if_neg hcp, if_pos hdig]
    rfl

theorem partOk_int (p : List Char) (hok : partOk p = true)
    (hb : isBracketPart p = true) :
    ∃ n : Nat, pyInt? (bracketText p) = some (Int.ofNat n) := by
  simp only [partOk, hb, Bool.not_true, Bool.false_or, Bool.and_eq_true,
    decide_eq_true_eq] at hok
  rw [pyInt_digits (bracketText p) hok.1 hok.2]
  exact ⟨valDigits (bracketText p), rfl⟩

theorem subscriptStr_ne_raised (d : Json) (k : String) : subscriptStr d k ≠ .raised := by
  unfold subscriptStr
  split
  · split <;> simp
  · simp

theorem subscriptInt_ne_raised (d : Json) (i : Int) : subscriptInt d i ≠ .raised := by
  unfold subscriptInt
  split
  · split
    · split <;> simp
    · simp
  · split
    · split <;> simp
    · simp
  · split <;> simp
  · simp

theorem assignPart_ne_raised (d : Json) (p : List Char) (v : Json)
    (hok : partOk p = true) : assignPart d p v ≠ .raised := by
  by_cases hb : isBracketPart p
  · obtain ⟨n, hn⟩ := partOk_int p hok hb
    simp only [assignPart, hb, if_true, hn]
    cases hss : subscriptStr d (String.mk (fieldOf p)) with
    | ok w =>
      cases w <;> try simp
      · cases normIdx _ _ <;> cases d <;> simp
      · cases d <;> simp
    | caught => simp
    | raised => exact absurd hss (subscriptStr_ne_raised d _)
  · simp only [assignPart, hb, Bool.false_eq_true, if_false]
    cases d <;> simp


theorem updateAt_ne_raised :
    ∀ (parts : List (List Char)) (lastPart : List Char) (d v : Json),
      (∀ p ∈ parts, partOk p = true) → partOk lastPart = true →
      updateAt d parts lastPart v ≠ .raised := by
  intro parts
  induction parts with
  | nil => intro lastPart d v _ hlast; exact assignPart_ne_raised d lastPart v hlast
  | cons p ps ih =>
    intro lastPart d v hall hlast
    have hp : partOk p = true := hall p (by simp)
    have hps : ∀ q ∈ ps, partOk q = true := fun q hq => hall q (by simp [hq])
    by_cases hb : isBracketPart p
    · obtain ⟨n, hn⟩ := partOk_int p hp hb
      simp only [updateAt, hb, if_true, hn]
      cases hss : subscriptStr d (String.mk (fieldOf p)) with
      | ok w =>
        cases w with
        | arr a =>
          dsimp only
          cases normIdx a.length (Int.ofNat n) with
          | some i =>
            dsimp only
            cases a.nth i with
            | some child =>
              dsimp only
              cases hrec : updateAt child ps lastPart v with
              | ok child' => cases d <;> simp
              | caught => simp
              | raised => exact absurd hrec (ih lastPart child v hps hlast)
            | none => simp
          | none => simp
        | str s =>
          dsimp only
          cases normIdx s.length (Int.ofNat n) with
          | some i =>
            dsimp only
            cases s.data.get? i with
            | some c =>
              dsimp only
              cases hrec : updateAt (.str (String.mk [c])) ps lastPart v with
              | ok child' => simp
              | caught => simp
              | raised => exact absurd hrec (ih lastPart _ v hps hlast)
            | none => simp
          | none => simp
        | obj inner =>
          dsimp only
          cases inner.lookInt (Int.ofNat n) with
          | some child =>
            dsimp only
            cases hrec : updateAt child ps lastPart v with
            | ok child' => cases d <;> simp
            | caught => simp
            | raised => exact absurd hrec (ih lastPart child v hps hlast)
          | none => simp
        | null => simp
        | bool b => simp
        | num j => simp
      | caught => simp
      | raised => exact absurd hss (subscriptStr_ne_raised d _)
    · simp only [updateAt, hb, Bool.false_eq_true, if_false]
      cases d with
      | obj o =>
        dsimp only
        cases o.lookupStr (String.mk p) with
        | some child =>
          dsimp only
          cases hrec : updateAt child ps lastPart v with
          | ok child' => simp
          | caught => simp
          | raised => exact absurd hrec (ih lastPart child v hps hlast)
        | none => simp
      | null => simp
      | bool b => simp
      | num j => simp
      | str s => simp
      | arr a => simp

theorem splitDot_ne_nil : ∀ l : List Char, splitDot l ≠ [] := by
  intro l
  induction l with
  | nil => simp [splitDot]
  | cons c rest ih =>
    by_cases hc : c = '.'
    · subst hc
      simp [splitDot]
    · simp only [splitDot]
      cases hs : splitDot rest with
      | nil => exact absurd hs ih
      | cons p ps =>
        split <;> simp_all

/-- On a path whose bracketed segments enclose only digits,
`update_nested_field` always returns normally: `True` with the updated
document or `False` with the document untouched — never an exception. -/
theorem updateNF_total (doc : Json) (path : String) (v : Json)
    (h : digitBrackets path = true) :
    ∃ b d', update_nested_field doc path v = .ok (b, d') := by
  have hparts : ∀ p ∈ splitDot path.data, partOk p = true := by
    intro p hp
    exact List.all_eq_true.mp h p hp
  simp only [update_nested_field]
  cases hlp : (splitDot path.data).getLast? with
  | none =>
    exact absurd (List.getLast?_eq_none_iff.mp hlp) (splitDot_ne_nil path.data)
  | some lastPart =>
    dsimp only
    have hlast : partOk lastPart = true := by
      apply hparts
      rw [List.getLast?_eq_getElem? (splitDot path.data)] at hlp
      exact List.getElem?_mem hlp
    have hinit : ∀ p ∈ (splitDot path.data).dropLast, partOk p = true :=
      fun p hp => hparts p (List.dropLast_subset _ hp)
    cases hup : updateAt doc (splitDot path.data).dropLast lastPart v with
    | ok d' => exact ⟨true, d', rfl⟩
    | caught => exact ⟨false, doc, rfl⟩
    | raised =>
      exact absurd hup (updateAt_ne_raised (splitDot path.data).dropLast lastPart doc v
        hinit hlast)

/-- C10 confirmed: for every document, every new value and every path in
which each bracketed segment encloses only decimal digits,
`update_nested_field` is total — it returns `True` or `False` and never
propagates an exception; every `KeyError`, `IndexError` and `TypeError`
of the walk and of the final assignment is caught.  (Paths with
non-digit bracket text are outside the guarantee: `int()` can raise an
uncaught `ValueError`, e.g. on `a[x]`.) -/
theorem C10_total (doc : Json) (path : String) (v : Json)
    (h : digitBrackets path = true) :
    ∃ b d', update_nested_field doc path v = .ok (b, d') :=
  updateNF_total doc path v h

/-- Witness for C10 at a concrete document and bracketed path, plus the
documented `ValueError` escape on non-digit bracket text. -/
theorem C10_total_witness :
    digitBrackets "xs[0].title" = true ∧
    (∃ b d', update_nested_field
      (.obj (.cons (.str "xs")
        (.arr (.cons (.obj (.cons (.str "title") (.str "x") .nil)) .nil)) .nil))
      "xs[0].title" (.str "y") = .ok (b, d')) ∧
    update_nested_field docAEmpty "a[x]" (.str "v") = .raised :=
  ⟨by decide,
    C10_total (.obj (.cons (.str "xs")
      (.arr (.cons (.obj (.cons (.str "title") (.str "x") .nil)) .nil)) .nil))
      "xs[0].title" (.str "y") (by decide),
    by decide⟩

/-! ## Reinjection accounting (C8, C1) -/

theorem applyGo_spec :
    ∀ (ts : List (String × String)) (d0 : Json) (u0 : Nat) (nf0 : List String),
      (∀ kv ∈ ts, digitBrackets (cleanPath kv.1) = true) →
      ∃ d u nf, applyGo ts d0 u0 nf0 = .ok (d, u, nf) ∧
        u + nf.length = u0 + nf0.length + ts.length := by
  intro ts
  induction ts with
  | nil =>
    intro d0 u0 nf0 _
    exact ⟨d0, u0, nf0, rfl, by simp⟩
  | cons kv rest ih =>
    intro d0 u0 nf0 hall
    obtain ⟨b, d', hbd⟩ :=
      updateNF_total d0 (cleanPath kv.1) (.str kv.2) (hall kv (by simp))
    have hrest : ∀ kv2 ∈ rest, digitBrackets (cleanPath kv2.1) = true :=
      fun kv2 h2 => hall kv2 (by simp [h2])
    simp only [applyGo, hbd]
    cases b with
    | true =>
      obtain ⟨d, u, nf, hgo, hcount⟩ := ih d' (u0 + 1) nf0 hrest
      refine ⟨d, u, nf, hgo, ?_⟩
      simp only [List.length_cons, List.length_nil] at hcount ⊢
      omega
    | false =>
      obtain ⟨d, u, nf, hgo, hcount⟩ := ih d' u0 (nf0 ++ [cleanPath kv.1]) hrest
      refine ⟨d, u, nf, hgo, ?_⟩
      simp only [List.length_append, List.length_cons, List.length_nil] at hcount ⊢
      omega

/-- C8 amended: on paths whose bracketed segments are digit-only, write
resolution never raises — failures during the walk and at a bracketed
final segment yield `False` (path recorded, batch continues) — but a
missing *final plain key* on a mapping is not detected: the key is
created and `True` returned (see the counterexample); the reinjection
loop attempts every entry and its counters balance:
updated + |not_found| = |translations|. -/
theorem C8_reinjection (translations : List (String × String)) (doc : Json)
    (h : ∀ kv ∈ translations, digitBrackets (cleanPath kv.1) = true) :
    (∃ d u nf, applyTranslations translations doc = .ok (d, u, nf) ∧
      u + nf.length = translations.length) ∧
    (∀ path v, digitBrackets path = true →
      ∃ b d', update_nested_field doc path v = .ok (b, d')) := by
  constructor
  · obtain ⟨d, u, nf, hgo, hcount⟩ := applyGo_spec translations doc 0 [] h
    exact ⟨d, u, nf, hgo, by simpa using hcount⟩
  · intro path v hp
    exact updateNF_total doc path v hp

/-- Witness for C8 amended: one resolvable and one unresolvable path
against `{"a": {"title": "x"}}`. -/
theorem C8_reinjection_witness :
    (∀ kv ∈ ([("root.a.title", "Y"), ("root.b[0].c", "Z")] : List (String × String)),
      digitBrackets (cleanPath kv.1) = true) ∧
    (∃ d u nf,
      applyTranslations [("root.a.title", "Y"), ("root.b[0].c", "Z")] docATitle =
        .ok (d, u, nf) ∧ u + nf.length = 2) :=
  ⟨by decide,
    (C8_reinjection [("root.a.title", "Y"), ("root.b[0].c", "Z")] docATitle
      (by decide)).1⟩

/-- C1 amended: Payload Reinjection first filters the loaded file down
to entries whose key ends with the configured `_<suffix>`, stripping
that suffix; only the surviving entries reach the write loop (each is
attempted exactly once and counted as updated or not-found), and a file
keyed by bare paths — as the translation scripts produce — is discarded
wholesale before the loop. -/
theorem C1_suffix_filter (data : List (String × String)) (suffix : String) (doc : Json)
    (h : ∀ kv ∈ buildTranslations data suffix, digitBrackets (cleanPath kv.1) = true) :
    ((∀ kv ∈ data, endsWithChars kv.1.data suffix.data = false) →
      buildTranslations data suffix = []) ∧
    (∀ k ∈ (buildTranslations data suffix).map Prod.fst,
      ∃ kv ∈ data, endsWithChars kv.1.data suffix.data = true ∧
        k = String.mk (dropLastChars kv.1.data suffix.length)) ∧
    (∃ d u nf, applyTranslations (buildTranslations data suffix) doc = .ok (d, u, nf) ∧
      u + nf.length = (buildTranslations data suffix).length) := by
  refine ⟨?_, ?_, ?_⟩
  · intro hnone
    have hgen : ∀ (l : List (String × String)) (acc : List (String × String)),
        (∀ kv ∈ l, endsWithChars kv.1.data suffix.data = false) →
        l.foldl (fun acc kv =>
          if endsWithChars kv.1.data suffix.data then
            insertAssoc acc (String.mk (dropLastChars kv.1.data suffix.length)) kv.2
          else acc) acc = acc := by
      intro l
      induction l with
      | nil => intro acc _; rfl
      | cons kv rest ihl =>
        intro acc hl
        rw [List.foldl_cons]
        rw [hl kv (by simp)]
        simp only [Bool.false_eq_true, if_false]
        exact ihl acc (fun kv2 h2 => hl kv2 (by simp [h2]))
    exact hgen data [] hnone
  · have hgen : ∀ (l : List (String × String)) (acc : List (String × String)),
        ∀ k ∈ (l.foldl (fun acc kv =>
          if endsWithChars kv.1.data suffix.data then
            insertAssoc acc (String.mk (dropLastChars kv.1.data suffix.length)) kv.2
          else acc) acc).map Prod.fst,
          k ∈ acc.map Prod.fst ∨
          ∃ kv ∈ l, endsWithChars kv.1.data suffix.data = true ∧
            k = String.mk (dropLastChars kv.1.data suffix.length) := by
      intro l
      induction l with
      | nil => intro acc k hk; exact Or.inl hk
      | cons kv rest ihl =>
        intro acc k hk
        rw [List.foldl_cons] at hk
        cases he : endsWithChars kv.1.data suffix.data with
        | true =>
          rw [he] at hk
          simp only [if_true] at hk
          rcases ihl _ k hk with hin | ⟨kv2, h2, he2, hk2⟩
          · -- k is a key of insertAssoc acc knew kv.2
            by_cases hkk : k = String.mk (dropLastChars kv.1.data suffix.length)
            · exact Or.inr ⟨kv, by simp, he, hkk⟩
            · left
              obtain ⟨pr, hpr, hfst⟩ := List.mem_map.mp hin
              have hmem2 : mapMem (insertAssoc acc
                  (String.mk (dropLastChars kv.1.data suffix.length)) kv.2) k = true := by
                rw [mapMem_iff_mem_keys]
                exact hin
              rw [mapMem_insertAssoc] at hmem2
              have : decide ((String.mk (dropLastChars kv.1.data suffix.length)) = k)
                  = false := by
                simp only [decide_eq_false_iff_not]
                exact fun hh => hkk hh.symm
              rw [this, Bool.or_false] at hmem2
              rw [← mapMem_iff_mem_keys]
              exact hmem2
          · exact Or.inr ⟨kv2, by simp [h2], he2, hk2⟩
        | false =>
          rw [he] at hk
          simp only [Bool.false_eq_true, if_false] at hk
          rcases ihl acc k hk with hin | ⟨kv2, h2, he2, hk2⟩
          · exact Or.inl hin
          · exact Or.inr ⟨kv2, by simp [h2], he2, hk2⟩
    intro k hk
    rcases hgen data [] k (by simpa [buildTranslations] using hk) with hin | hout
    · simp at hin
    · exact hout
  · obtain ⟨d, u, nf, hgo, hcount⟩ := applyGo_spec (buildTranslations data suffix) doc 0 [] h
    exact ⟨d, u, nf, hgo, by simpa using hcount⟩

/-- Witness for C1 amended: a two-entry file, one suffixed key, one
bare. -/
theorem C1_suffix_filter_witness :
    (∀ kv ∈ buildTranslations [("root.a.title_th", "X"), ("root.a.title", "Y")] "_th",
      digitBrackets (cleanPath kv.1) = true) ∧
    (∃ d u nf, applyTranslations
      (buildTranslations [("root.a.title_th", "X"), ("root.a.title", "Y")] "_th")
      docATitle = .ok (d, u, nf) ∧
      u + nf.length =
        (buildTranslations [("root.a.title_th", "X"), ("root.a.title", "Y")] "_th").length) :=
  ⟨by decide,
    (C1_suffix_filter [("root.a.title_th", "X"), ("root.a.title", "Y")] "_th" docATitle
      (by decide)).2.2⟩

/-- C6 amended: the two scripts order the overlapping predicates
differently.  In translate.py the exact dynamic-row pattern is checked
first, so a key matching both predicates is skipped outright and never
written; in gpt-translate.py the broader rows-label pass-through is
checked first, so the same key (with a non-placeholder value) is copied
verbatim into the translated mapping and the dynamic-row skip is never
reached. -/
theorem C6_precedence (o1 o2 : Oracle) (m : Mapping) (k v : String)
    (hmem : mapMem m k = false)
    (hdyn : is_exact_dynamic_row_pattern k = true)
    (hrows : is_rows_label_key k = true)
    (hpl : is_placeholder_text v = false) :
    gemStep o2 m (k, v) = (m, []) ∧
    gptStep o1 m (k, v) = (insertAssoc m k v, [.save (insertAssoc m k v)]) := by
  constructor
  · simp [gemStep, hmem, hdyn]
  · simp [gptStep, hmem, hpl, rows_label_not_dnd k hrows, hrows]

/-- Witness for C6 amended at the concrete overlapping key. -/
theorem C6_precedence_witness :
    (mapMem [] dynRowKey = false ∧
      is_exact_dynamic_row_pattern dynRowKey = true ∧
      is_rows_label_key dynRowKey = true ∧
      is_placeholder_text "Go" = false) ∧
    (gemStep oracleT [] (dynRowKey, "Go") = ([], []) ∧
      gptStep oracleT [] (dynRowKey, "Go") =
        (insertAssoc [] dynRowKey "Go", [.save (insertAssoc [] dynRowKey "Go")])) :=
  ⟨⟨by decide, by decide, by decide, by decide⟩,
    C6_precedence oracleT oracleT [] dynRowKey "Go" (by decide) (by decide) (by decide)
      (by decide)⟩

/-! ## Decimal numerals: the digits the extractor writes parse back (C3) -/

theorem natToCharsAux_ne_nil : ∀ (n : Nat) (acc : List Char),
    natToCharsAux n acc = [] → n = 0 ∧ acc = [] := by
  intro n
  induction n using Nat.strong_induction_on with
  | _ n ih =>
    intro acc h
    match n with
    | 0 =>
      rw [natToCharsAux] at h
      exact ⟨rfl, h⟩
    | m + 1 =>
      rw [natToCharsAux] at h
      have hlt : (m + 1) / 10 < m + 1 := Nat.div_lt_self (Nat.succ_pos m) (by omega)
      obtain ⟨_, habs⟩ := ih ((m + 1) / 10) hlt _ h
      cases habs

theorem natToCharsAux_digits : ∀ (n : Nat) (acc : List Char),
    (∀ c ∈ acc, c.isDigit = true) → ∀ c ∈ natToCharsAux n acc, c.isDigit = true := by
  intro n
  induction n using Nat.strong_induction_on with
  | _ n ih =>
    intro acc hacc c hc
    match n with
    | 0 =>
      rw [natToCharsAux] at hc
      exact hacc c hc
    | m + 1 =>
      rw [natToCharsAux] at hc
      have hlt : (m + 1) / 10 < m + 1 := Nat.div_lt_self (Nat.succ_pos m) (by omega)
      refine ih ((m + 1) / 10) hlt _ ?_ c hc
      intro c2 hc2
      rcases List.mem_cons.mp hc2 with rfl | hmem
      · have hr : (m + 1) % 10 < 10 := Nat.mod_lt _ (by omega)
        interval_cases h : (m + 1) % 10 <;> decide
      · exact hacc c2 hmem

/-- Folding the digit-value step from an arbitrary seed. -/
def valFrom (v : Nat) (l : List Char) : Nat :=
  l.foldl (fun a c => 10 * a + (c.toNat - 48)) v

theorem valFrom_natToCharsAux : ∀ (n : Nat) (acc : List Char),
    valFrom 0 (natToCharsAux n acc) = valFrom n acc := by
  intro n
  induction n using Nat.strong_induction_on with
  | _ n ih =>
    intro acc
    match n with
    | 0 => rw [natToCharsAux]
    | m + 1 =>
      rw [natToCharsAux]
      have hlt : (m + 1) / 10 < m + 1 := Nat.div_lt_self (Nat.succ_pos m) (by omega)
      rw [ih ((m + 1) / 10) hlt]
      show valFrom (10 * ((m + 1) / 10) + ((Char.ofNat (48 + (m + 1) % 10)).toNat - 48)) acc
        = valFrom (m + 1) acc
      have hr : (m + 1) % 10 < 10 := Nat.mod_lt _ (by omega)
      have htn : (Char.ofNat (48 + (m + 1) % 10)).toNat - 48 = (m + 1) % 10 := by
        interval_cases h : (m + 1) % 10 <;> decide
      have hAB : 10 * ((m + 1) / 10) + (m + 1) % 10 = m + 1 := by omega
      rw [htn, hAB]

theorem natToChars_ne_nil (n : Nat) : natToChars n ≠ [] := by
  match n with
  | 0 => simp [natToChars]
  | m + 1 =>
    intro h
    simp only [natToChars] at h
    obtain ⟨habs, _⟩ := natToCharsAux_ne_nil (m + 1) [] h
    cases habs

theorem natToChars_digits (n : Nat) : ∀ c ∈ natToChars n, c.isDigit = true := by
  match n with
  | 0 =>
    intro c hc
    simp only [natToChars, List.mem_singleton] at hc
    subst hc
    decide
  | m + 1 =>
    exact natToCharsAux_digits (m + 1) [] (by simp)

theorem valDigits_natToChars (n : Nat) : valDigits (natToChars n) = n := by
  match n with
  | 0 => decide
  | m + 1 =>
    show valFrom 0 (natToCharsAux (m + 1) []) = m + 1
    rw [valFrom_natToCharsAux (m + 1) []]
    rfl

theorem pyInt_natToChars (n : Nat) :
    pyInt? (natToChars n) = some (Int.ofNat n) := by
  rw [pyInt_digits (natToChars n) (natToChars_ne_nil n)
    (List.all_eq_true.mpr (natToChars_digits n)), valDigits_natToChars n]

/-! ## Part-parsing lemmas: clean keys and digit indices (C3) -/

theorem digit_ne (c : Char) (h : c.isDigit = true) :
    c ≠ '.' ∧ c ≠ '[' ∧ c ≠ ']' := by
  refine ⟨?_, ?_, ?_⟩ <;> (intro he; rw [he] at h; exact absurd h (by decide))

theorem cleanKey_chars (k : List Char) (h : cleanKeyB k = true) :
    ∀ c ∈ k, c ≠ '.' ∧ c ≠ '[' ∧ c ≠ ']' := by
  intro c hc
  have := List.all_eq_true.mp h c hc
  simp only [Bool.and_eq_true, decide_eq_true_eq] at this
  exact ⟨this.1.1, this.1.2, this.2⟩

theorem contains_eq_false_of_all_ne (l : List Char) (ch : Char)
    (h : ∀ c ∈ l, c ≠ ch) : l.contains ch = false := by
  induction l with
  | nil => rfl
  | cons c rest ih =>
    simp only [List.contains_cons, Bool.or_eq_false_iff]
    constructor
    · simp only [beq_eq_false_iff_ne, ne_eq]
      exact fun he => h c (by simp) he.symm
    · exact ih (fun c2 h2 => h c2 (by simp [h2]))

theorem contains_eq_true_of_mem (l : List Char) (ch : Char) (h : ch ∈ l) :
    l.contains ch = true := by
  induction l with
  | nil => simp at h
  | cons c rest ih =>
    rcases List.mem_cons.mp h with rfl | hmem
    · simp [List.contains_cons]
    · simp only [List.contains_cons, ih hmem, Bool.or_true]

theorem isBracketPart_clean (k : List Char) (h : cleanKeyB k = true) :
    isBracketPart k = false := by
  simp only [isBracketPart, Bool.and_eq_false_iff]
  exact Or.inl (contains_eq_false_of_all_ne k '[' (fun c hc => (cleanKey_chars k h c hc).2.1))

theorem isBracketPart_part (k ds : List Char) :
    isBracketPart (k ++ '[' :: (ds ++ [']'])) = true := by
  simp only [isBracketPart, Bool.and_eq_true]
  constructor
  · exact contains_eq_true_of_mem _ '[' (by simp)
  · exact contains_eq_true_of_mem _ ']' (by simp)

theorem takeWhile_append_all (p : Char → Bool) (a b : List Char)
    (h : ∀ c ∈ a, p c = true) : (a ++ b).takeWhile p = a ++ b.takeWhile p := by
  induction a with
  | nil => rfl
  | cons c rest ih =>
    simp only [List.cons_append, List.takeWhile_cons, h c (by simp), if_true]
    rw [ih (fun c2 h2 => h c2 (by simp [h2]))]

theorem findIdx_append_none (p : Char → Bool) (a b : List Char)
    (h : ∀ c ∈ a, p c = false) : (a ++ b).findIdx p = a.length + b.findIdx p := by
  induction a with
  | nil => simp
  | cons c rest ih =>
    simp only [List.cons_append, List.findIdx_cons, h c (by simp), cond_false,
      List.length_cons]
    rw [ih (fun c2 h2 => h c2 (by simp [h2]))]
    omega

theorem fieldOf_plain (k : List Char) (hk : cleanKeyB k = true) :
    fieldOf k = k := by
  simp only [fieldOf]
  refine List.takeWhile_eq_self_iff.mpr ?_
  intro c hc
  simp only [decide_eq_true_eq, ne_eq]
  exact (cleanKey_chars k hk c hc).2.1

theorem fieldOf_part (k ds : List Char) (hk : cleanKeyB k = true) :
    fieldOf (k ++ '[' :: ds) = k := by
  simp only [fieldOf]
  rw [takeWhile_append_all _ k ('[' :: ds) (by
    intro c hc
    simp only [decide_eq_true_eq, ne_eq]
    exact (cleanKey_chars k hk c hc).2.1)]
  simp [List.takeWhile_cons]

theorem firstIdx_append_none (ch : Char) (a b : List Char)
    (h : ∀ c ∈ a, c ≠ ch) : firstIdx ch (a ++ b) = a.length + firstIdx ch b := by
  induction a with
  | nil => simp [firstIdx]
  | cons c rest ih =>
    simp only [List.cons_append, firstIdx, if_neg (h c (by simp)), List.length_cons]
    show firstIdx ch (rest ++ b) + 1 = rest.length + 1 + firstIdx ch b
    rw [ih (fun c2 h2 => h c2 (by simp [h2]))]
    omega

theorem bracketText_part (k ds : List Char) (hk : cleanKeyB k = true)
    (hds : ∀ c ∈ ds, c ≠ '[' ∧ c ≠ ']') :
    bracketText (k ++ '[' :: (ds ++ [']'])) = ds := by
  simp only [bracketText]
  have hfo : firstIdx '[' (k ++ '[' :: (ds ++ [']'])) = k.length := by
    rw [firstIdx_append_none '[' k _ (fun c hc => (cleanKey_chars k hk c hc).2.1)]
    simp [firstIdx]
  have hfc : firstIdx ']' (k ++ '[' :: (ds ++ [']'])) = k.length + 1 + ds.length := by
    rw [firstIdx_append_none ']' k _ (fun c hc => (cleanKey_chars k hk c hc).2.2)]
    simp only [firstIdx, if_neg (show ('[' : Char) ≠ ']' from by decide)]
    rw [firstIdx_append_none ']' ds [']'] (fun c hc => (hds c hc).2)]
    simp [firstIdx]
    omega
  rw [hfo, hfc]
  have hsplit : k ++ '[' :: (ds ++ [']']) = (k ++ '[' :: ds) ++ [']'] := by simp
  rw [hsplit]
  rw [show k.length + 1 + ds.length = (k ++ '[' :: ds).length from by simp; omega]
  rw [List.take_left]
  rw [show k ++ '[' :: ds = (k ++ ['[']) ++ ds from by simp]
  rw [show k.length + 1 = (k ++ ['[']).length from by simp]
  exact List.drop_left _ _

/-! ## Object and array structure lemmas (C3) -/

theorem lookupStr_hasKey : ∀ (o : JObj) (k : String) (w : Json),
    o.lookupStr k = some w → JObj.hasKey o (.str k) = true
  | .nil, k, w => by
    intro h
    simp [JObj.lookupStr] at h
  | .cons (.str s) v0 tl, k, w => by
    intro h
    simp only [JObj.lookupStr] at h
    by_cases hs : s = k
    · simp [JObj.hasKey, hs]
    · rw [if_neg hs] at h
      simp only [JObj.hasKey, Bool.or_eq_true]
      exact Or.inr (lookupStr_hasKey tl k w h)
  | .cons (.int n) v0 tl, k, w => by
    intro h
    simp only [JObj.lookupStr] at h
    simp only [JObj.hasKey, Bool.or_eq_true]
    exact Or.inr (lookupStr_hasKey tl k w h)

theorem lookupStr_WF : ∀ (o : JObj) (k : String) (w : Json),
    WFObj o = true → o.lookupStr k = some w →
    cleanKeyB k.data = true ∧ WFJson w = true
  | .nil, k, w => by
    intro _ h
    simp [JObj.lookupStr] at h
  | .cons (.str s) v0 tl, k, w => by
    intro hwf h
    rw [WFObj] at hwf
    simp only [Bool.and_eq_true, cleanStrKey] at hwf
    simp only [JObj.lookupStr] at h
    by_cases hs : s = k
    · rw [if_pos hs] at h
      cases h
      exact ⟨hs ▸ hwf.1.1.1, hwf.1.2⟩
    · rw [if_neg hs] at h
      exact lookupStr_WF tl k w hwf.2 h
  | .cons (.int n) v0 tl, k, w => by
    intro hwf h
    rw [WFObj] at hwf
    simp only [Bool.and_eq_true, cleanStrKey] at hwf
    exact absurd hwf.1.1.1 (by simp)

theorem nth_WF : ∀ (a : JArr) (i : Nat) (w : Json),
    WFArr a = true → a.nth i = some w →
    WFJson w = true ∧ ∀ a2 : JArr, w ≠ .arr a2
  | .nil, i, w => by
    intro _ h
    simp [JArr.nth] at h
  | .cons x tl, 0, w => by
    intro hwf h
    rw [WFArr] at hwf
    simp only [Bool.and_eq_true] at hwf
    simp only [JArr.nth] at h
    cases h
    refine ⟨hwf.1.2, ?_⟩
    intro a2 he
    subst he
    exact absurd hwf.1.1 (by simp [notArr])
  | .cons x tl, j + 1, w => by
    intro hwf h
    rw [WFArr] at hwf
    simp only [Bool.and_eq_true] at hwf
    simp only [JArr.nth] at h
    exact nth_WF tl j w hwf.2 h

theorem nth_lt_length : ∀ (a : JArr) (i : Nat) (w : Json),
    a.nth i = some w → i < a.length
  | .nil, i, w => by
    intro h
    simp [JArr.nth] at h
  | .cons x tl, 0, w => by
    intro _
    simp only [JArr.length]
    omega
  | .cons x tl, j + 1, w => by
    intro h
    simp only [JArr.nth] at h
    have := nth_lt_length tl j w h
    simp only [JArr.length]
    omega

theorem setStr_lookup_id : ∀ (o : JObj) (k : String) (w : Json),
    o.lookupStr k = some w → o.setStr k w = o
  | .nil, k, w => by
    intro h
    simp [JObj.lookupStr] at h
  | .cons (.str s) v0 tl, k, w => by
    intro h
    simp only [JObj.lookupStr] at h
    by_cases hs : s = k
    · rw [if_pos hs] at h
      cases h
      simp [JObj.setStr, hs]
    · rw [if_neg hs] at h
      simp only [JObj.setStr, if_neg hs]
      rw [setStr_lookup_id tl k w h]
  | .cons (.int n) v0 tl, k, w => by
    intro h
    simp only [JObj.lookupStr] at h
    simp only [JObj.setStr]
    rw [setStr_lookup_id tl k w h]

theorem setNth_nth_id : ∀ (a : JArr) (i : Nat) (w : Json),
    a.nth i = some w → a.setNth i w = a
  | .nil, i, w => by
    intro _
    rfl
  | .cons x tl, 0, w => by
    intro h
    simp only [JArr.nth] at h
    cases h
    rfl
  | .cons x tl, j + 1, w => by
    intro h
    simp only [JArr.nth] at h
    simp only [JArr.setNth]
    rw [setNth_nth_id tl j w h]

theorem subscriptStr_lookup (o : JObj) (k : String) (w : Json)
    (h : o.lookupStr k = some w) : subscriptStr (.obj o) k = .ok w := by
  simp [subscriptStr, h]

theorem subscriptInt_nth (a : JArr) (i : Nat) (w : Json)
    (h : a.nth i = some w) : subscriptInt (.arr a) (Int.ofNat i) = .ok w := by
  have hlt := nth_lt_length a i w h
  simp only [subscriptInt, normIdx]
  rw [if_pos (show (0 : Int) ≤ Int.ofNat i from Int.ofNat_le.mpr (Nat.zero_le i))]
  rw [if_pos (show (Int.ofNat i) < (a.length : Int) from Int.ofNat_lt.mpr hlt)]
  have htn : (Int.ofNat i).toNat = i := rfl
  rw [htn]
  dsimp only
  rw [h]

/-! ## Route resolution lemmas (C3) -/

theorem getRouteO_eq (o : JObj) (segs : List Seg) (h : segs ≠ []) :
    getRouteO o segs = getRoute (.obj o) segs := by
  cases segs with
  | nil => exact absurd rfl h
  | cons s rest =>
    cases s with
    | key k => rfl
    | idx i => rfl

theorem getRouteA_zero (a : JArr) (segs : List Seg) (h : segs ≠ []) :
    getRouteA a 0 segs = getRoute (.arr a) segs := by
  cases segs with
  | nil => exact absurd rfl h
  | cons s rest =>
    cases s with
    | key k => rfl
    | idx j =>
      simp only [getRouteA, getRoute]
      rw [if_pos (Nat.zero_le j)]
      simp

theorem getRouteO_cons_of_hasKey_false (k : JKey) (val : Json) (rest : JObj)
    (segs : List Seg) (x : Json) (h : getRouteO rest segs = some x)
    (hnk : JObj.hasKey rest k = false) :
    getRouteO (.cons k val rest) segs = some x := by
  cases segs with
  | nil => simp [getRouteO] at h
  | cons s r =>
    cases s with
    | idx i => simp [getRouteO] at h
    | key k2 =>
      simp only [getRouteO] at h ⊢
      cases hlk : rest.lookupStr k2 with
      | none => rw [hlk] at h; simp at h
      | some w =>
        rw [hlk] at h
        have hk2 : rest.hasKey (.str k2) = true := lookupStr_hasKey rest k2 w hlk
        have hne : k ≠ .str k2 := by
          intro he
          rw [he] at hnk
          rw [hnk] at hk2
          cases hk2
        cases k with
        | str s2 =>
          simp only [JObj.lookupStr]
          rw [if_neg (fun he => hne (by rw [he]))]
          rw [hlk]
          exact h
        | int n =>
          simp only [JObj.lookupStr]
          rw [hlk]
          exact h

theorem getRouteA_cons_lift (x0 : Json) (rest : JArr) (i : Nat)
    (segs : List Seg) (x : Json) (h : getRouteA rest (i + 1) segs = some x) :
    getRouteA (.cons x0 rest) i segs = some x := by
  cases segs with
  | nil => simp [getRouteA] at h
  | cons s r =>
    cases s with
    | key k => simp [getRouteA] at h
    | idx j =>
      simp only [getRouteA] at h ⊢
      by_cases hij : i + 1 ≤ j
      · rw [if_pos hij] at h
        rw [if_pos (by omega)]
        have hj : j - i = (j - (i + 1)) + 1 := by omega
        rw [hj]
        simp only [JArr.nth]
        exact h
      · rw [if_neg hij] at h
        cases h

theorem getRouteA_head (x0 : Json) (rest : JArr) (i : Nat) (segs : List Seg)
    (x : Json) (h : getRoute x0 segs = some x) :
    getRouteA (.cons x0 rest) i (.idx i :: segs) = some x := by
  simp only [getRouteA]
  rw [if_pos (Nat.le_refl i)]
  simp only [Nat.sub_self, JArr.nth]
  exact h

theorem getRoute_obj_headKey (o : JObj) (segs : List Seg) (x : Json)
    (hne : segs ≠ []) (h : getRoute (.obj o) segs = some x) :
    headKey segs = true := by
  cases segs with
  | nil => exact absurd rfl hne
  | cons s r =>
    cases s with
    | key k => rfl
    | idx i => simp [getRoute] at h

theorem getRoute_segsOk : ∀ (segs : List Seg) (d : Json) (x : Json),
    WFJson d = true → getRoute d segs = some x →
    keysClean segs = true ∧ noIdxIdx segs = true ∧
      (∀ j r, segs = .idx j :: r → ∃ a, d = .arr a) := by
  intro segs
  induction segs with
  | nil =>
    intro d x _ _
    exact ⟨rfl, rfl, fun j r h => by cases h⟩
  | cons s rest ih =>
    intro d x hwf h
    cases s with
    | key k =>
      cases d with
      | obj o =>
        simp only [getRoute] at h
        cases hlk : o.lookupStr k with
        | none => rw [hlk] at h; simp at h
        | some w =>
          rw [hlk] at h
          simp at h
          have hWFw := lookupStr_WF o k w (by simpa [WFJson] using hwf) hlk
          obtain ⟨hc, hn, ha⟩ := ih w x hWFw.2 h
          refine ⟨?_, ?_, fun j r hh => by cases hh⟩
          · simp only [keysClean, Bool.and_eq_true]
            exact ⟨hWFw.1, hc⟩
          · cases rest with
            | nil => rfl
            | cons s2 r2 =>
              cases s2 with
              | key k2 => simpa [noIdxIdx] using hn
              | idx j2 => simpa [noIdxIdx] using hn
      | null => simp [getRoute] at h
      | bool b => simp [getRoute] at h
      | num n => simp [getRoute] at h
      | str s2 => simp [getRoute] at h
      | arr a => simp [getRoute] at h
    | idx j =>
      cases d with
      | arr a =>
        simp only [getRoute] at h
        cases hnth : a.nth j with
        | none => rw [hnth] at h; simp at h
        | some w =>
          rw [hnth] at h
          simp at h
          have hWFw := nth_WF a j w (by simpa [WFJson] using hwf) hnth
          obtain ⟨hc, hn, ha⟩ := ih w x hWFw.1 h
          refine ⟨by simpa [keysClean] using hc, ?_, fun j2 r2 hh => by
            cases hh
            exact ⟨a, rfl⟩⟩
          cases rest with
          | nil => rfl
          | cons s2 r2 =>
            cases s2 with
            | key k2 => simpa [noIdxIdx] using hn
            | idx j2 =>
              obtain ⟨a2, ha2⟩ := ha j2 r2 rfl
              exact absurd ha2 (hWFw.2 a2)
      | null => simp [getRoute] at h
      | bool b => simp [getRoute] at h
      | num n => simp [getRoute] at h
      | str s2 => simp [getRoute] at h
      | obj o => simp [getRoute] at h

/-! ## What the extractor's entries mean: routes to string leaves (C3) -/

theorem insertAssocC_mem (res : List (List Char × String)) (k : List Char) (s : String)
    (p : List Char) (v : String) (h : (p, v) ∈ insertAssocC res k s) :
    (p, v) ∈ res ∨ (p = k ∧ v = s) := by
  induction res with
  | nil =>
    simp only [insertAssocC, List.mem_singleton] at h
    cases h
    exact Or.inr ⟨rfl, rfl⟩
  | cons hd tl ih =>
    cases hd with
    | mk ka va =>
      by_cases hk : ka = k
      · simp only [insertAssocC, if_pos hk] at h
        rcases List.mem_cons.mp h with he | hmem
        · cases he
          exact Or.inr ⟨hk, rfl⟩
        · exact Or.inl (by simp [hmem])
      · simp only [insertAssocC, if_neg hk] at h
        rcases List.mem_cons.mp h with he | hmem
        · exact Or.inl (by simp [he])
        · rcases ih hmem with hin | hout
          · exact Or.inl (by simp [hin])
          · exact Or.inr hout

theorem cleanStrKey_str (k : JKey) (h : cleanStrKey k = true) :
    ∃ ks : String, k = .str ks ∧ cleanKeyB ks.data = true := by
  cases k with
  | str s => exact ⟨s, rfl, h⟩
  | int n => exact absurd h (by simp [cleanStrKey])

mutual
theorem extractJC_spec : ∀ (d : Json) (path : List Char)
    (res : List (List Char × String)) (p : List Char) (v : String),
    WFJson d = true → (p, v) ∈ extractJC d path res →
    (p, v) ∈ res ∨ ∃ segs, segs ≠ [] ∧ p = path ++ serialSegs segs ∧
      getRoute d segs = some (.str v)
  | .obj o, path, res, p, v => by
    intro hwf h
    simp only [extractJC] at h
    rcases extractObjC_spec o path res p v (by simpa [WFJson] using hwf) h with
      hin | ⟨segs, hne, hp, hroute⟩
    · exact Or.inl hin
    · exact Or.inr ⟨segs, hne, hp, by rw [← getRouteO_eq o segs hne]; exact hroute⟩
  | .arr a, path, res, p, v => by
    intro hwf h
    simp only [extractJC] at h
    rcases extractArrC_spec a 0 path res p v (by simpa [WFJson] using hwf) h with
      hin | ⟨segs, hne, hp, hroute⟩
    · exact Or.inl hin
    · exact Or.inr ⟨segs, hne, hp, by rw [← getRouteA_zero a segs hne]; exact hroute⟩
  | .null, path, res, p, v => by
    intro _ h
    simp only [extractJC] at h
    exact Or.inl h
  | .bool b, path, res, p, v => by
    intro _ h
    simp only [extractJC] at h
    exact Or.inl h
  | .num n, path, res, p, v => by
    intro _ h
    simp only [extractJC] at h
    exact Or.inl h
  | .str s, path, res, p, v => by
    intro _ h
    simp only [extractJC] at h
    exact Or.inl h

theorem extractObjC_spec : ∀ (o : JObj) (path : List Char)
    (res : List (List Char × String)) (p : List Char) (v : String),
    WFObj o = true → (p, v) ∈ extractObjC o path res →
    (p, v) ∈ res ∨ ∃ segs, segs ≠ [] ∧ p = path ++ serialSegs segs ∧
      getRouteO o segs = some (.str v)
  | .nil, path, res, p, v => by
    intro _ h
    simp only [extractObjC] at h
    exact Or.inl h
  | .cons k val rest, path, res, p, v => by
    intro hwf h
    rw [WFObj] at hwf
    simp only [Bool.and_eq_true, Bool.not_eq_true'] at hwf
    obtain ⟨⟨⟨hck, hnk⟩, hwv⟩, hwr⟩ := hwf
    obtain ⟨ks, rfl, hksclean⟩ := cleanStrKey_str k hck
    simp only [extractObjC] at h
    rcases extractObjC_spec rest path _ p v hwr h with hin | ⟨segs, hne, hp, hroute⟩
    · -- the pair comes from this binding's contribution
      cases val with
      | obj o2 =>
        rcases extractJC_spec (.obj o2) (path ++ '.' :: keyChars (.str ks)) res p v hwv hin
          with hin2 | ⟨segs2, hne2, hp2, hroute2⟩
        · exact Or.inl hin2
        · refine Or.inr ⟨.key ks :: segs2, by simp, ?_, ?_⟩
          · rw [hp2]
            simp [serialSegs, keyChars]
          · simp only [getRouteO, JObj.lookupStr, if_pos rfl]
            simp [hroute2]
      | arr a2 =>
        rcases extractJC_spec (.arr a2) (path ++ '.' :: keyChars (.str ks)) res p v hwv hin
          with hin2 | ⟨segs2, hne2, hp2, hroute2⟩
        · exact Or.inl hin2
        · refine Or.inr ⟨.key ks :: segs2, by simp, ?_, ?_⟩
          · rw [hp2]
            simp [serialSegs, keyChars]
          · simp only [getRouteO, JObj.lookupStr, if_pos rfl]
            simp [hroute2]
      | str s =>
        dsimp only at hin
        split at hin
        · rcases insertAssocC_mem res _ s p v hin with hin2 | ⟨hp, hv⟩
          · exact Or.inl hin2
          · refine Or.inr ⟨[.key ks], by simp, ?_, ?_⟩
            · rw [hp]
              simp [serialSegs]
            · subst hv
              simp only [getRouteO, JObj.lookupStr, if_pos rfl]
              simp [getRoute]
        · exact Or.inl hin
      | null => exact Or.inl hin
      | bool b => exact Or.inl hin
      | num n => exact Or.inl hin
    · -- the pair's route lies in the remaining bindings
      exact Or.inr ⟨segs, hne, hp,
        getRouteO_cons_of_hasKey_false (.str ks) val rest segs _ hroute hnk⟩

theorem extractArrC_spec : ∀ (a : JArr) (i : Nat) (path : List Char)
    (res : List (List Char × String)) (p : List Char) (v : String),
    WFArr a = true → (p, v) ∈ extractArrC a i path res →
    (p, v) ∈ res ∨ ∃ segs, segs ≠ [] ∧ p = path ++ serialSegs segs ∧
      getRouteA a i segs = some (.str v)
  | .nil, i, path, res, p, v => by
    intro _ h
    simp only [extractArrC] at h
    exact Or.inl h
  | .cons x tl, i, path, res, p, v => by
    intro hwf h
    rw [WFArr] at hwf
    simp only [Bool.and_eq_true] at hwf
    obtain ⟨⟨hna, hwx⟩, hwtl⟩ := hwf
    simp only [extractArrC] at h
    rcases extractArrC_spec tl (i + 1) path _ p v hwtl h with hin | ⟨segs, hne, hp, hroute⟩
    · rcases extractJC_spec x (path ++ '[' :: (natToChars i ++ [']'])) res p v hwx hin
        with hin2 | ⟨segs2, hne2, hp2, hroute2⟩
      · exact Or.inl hin2
      · refine Or.inr ⟨.idx i :: segs2, by simp, ?_, getRouteA_head x tl i segs2 _ hroute2⟩
        rw [hp2]
        simp [serialSegs]
    · exact Or.inr ⟨segs, hne, hp, getRouteA_cons_lift x tl i segs _ hroute⟩
end

/-! ## Dot-splitting a serialized route (C3) -/

theorem splitDot_nodot : ∀ (l : List Char), (∀ c ∈ l, c ≠ '.') → splitDot l = [l]
  | [], _ => rfl
  | c :: rest, h => by
    have hc : c ≠ '.' := h c (List.mem_cons_self c rest)
    have hrest := splitDot_nodot rest fun d hd => h d (List.mem_cons_of_mem c hd)
    rw [splitDot.eq_def]
    split
    · rename_i heq
      simp at heq
    · rename_i r2 heq
      rw [List.cons_eq_cons] at heq
      exact absurd heq.1 hc
    · rename_i c2 r2 hne heq
      rw [List.cons_eq_cons] at heq
      obtain ⟨rfl, rfl⟩ := heq
      rw [hrest]

theorem splitDot_nodot_dot : ∀ (l t : List Char), (∀ c ∈ l, c ≠ '.') →
    splitDot (l ++ '.' :: t) = l :: splitDot t
  | [], t, _ => by simp [splitDot]
  | c :: rest, t, h => by
    have hc : c ≠ '.' := h c (List.mem_cons_self c rest)
    have hrest := splitDot_nodot_dot rest t fun d hd => h d (List.mem_cons_of_mem c hd)
    rw [List.cons_append, splitDot.eq_def]
    split
    · rename_i heq
      simp at heq
    · rename_i r2 heq
      rw [List.cons_eq_cons] at heq
      exact absurd heq.1 hc
    · rename_i c2 r2 hne heq
      rw [List.cons_eq_cons] at heq
      obtain ⟨rfl, rfl⟩ := heq
      rw [hrest]

theorem bracketChars_ne (k : String) (i : Nat) (hk : cleanKeyB k.data = true) :
    ∀ c ∈ k.data ++ '[' :: (natToChars i ++ [']']), c ≠ '.' := by
  intro c hc
  rcases List.mem_append.mp hc with h1 | h2
  · exact (cleanKey_chars _ hk c h1).1
  · rcases List.mem_cons.mp h2 with rfl | h3
    · decide
    · rcases List.mem_append.mp h3 with h4 | h5
      · exact (digit_ne c (natToChars_digits i c h4)).1
      · rw [List.mem_singleton] at h5
        subst h5
        decide

theorem splitDot_serial : ∀ (rest : List Seg) (k : String),
    cleanKeyB k.data = true → keysClean rest = true →
    noIdxIdx (Seg.key k :: rest) = true →
    splitDot (k.data ++ serialSegs rest) = partsOf (Seg.key k :: rest)
  | [], k => by
    intro hk _ _
    simp only [serialSegs, List.append_nil]
    rw [splitDot_nodot k.data fun c hc => (cleanKey_chars _ hk c hc).1]
    rfl
  | .key k2 :: rest2, k => by
    intro hk hkc hni
    simp only [keysClean, Bool.and_eq_true] at hkc
    have hni2 : noIdxIdx (Seg.key k2 :: rest2) = true := by
      simpa [noIdxIdx] using hni
    rw [serialSegs, splitDot_nodot_dot k.data _ fun c hc => (cleanKey_chars _ hk c hc).1,
      splitDot_serial rest2 k2 hkc.1 hkc.2 hni2]
    rfl
  | .idx i :: [], k => by
    intro hk _ _
    simp only [serialSegs, List.append_nil]
    rw [splitDot_nodot _ (bracketChars_ne k i hk)]
    rfl
  | .idx i :: .key k3 :: rest3, k => by
    intro hk hkc hni
    simp only [keysClean, Bool.and_eq_true] at hkc
    have hni3 : noIdxIdx (Seg.key k3 :: rest3) = true := by
      simpa [noIdxIdx] using hni
    have hregroup : k.data ++ serialSegs (Seg.idx i :: Seg.key k3 :: rest3) =
        (k.data ++ '[' :: (natToChars i ++ [']'])) ++ '.' :: (k3.data ++ serialSegs rest3) := by
      simp [serialSegs, List.append_assoc]
    rw [hregroup, splitDot_nodot_dot _ _ (bracketChars_ne k i hk),
      splitDot_serial rest3 k3 hkc.1 hkc.2 hni3]
    rfl
  | .idx i :: .idx j :: rest3, k => by
    intro _ _ hni
    simp [noIdxIdx] at hni

/-! ## The read walk follows a route (C3) -/

theorem natToChars_noBrackets (i : Nat) :
    ∀ c ∈ natToChars i, c ≠ '[' ∧ c ≠ ']' := by
  intro c hc
  exact ⟨(digit_ne c (natToChars_digits i c hc)).2.1,
    (digit_ne c (natToChars_digits i c hc)).2.2⟩

theorem walkPart_plain (o : JObj) (k : String) (w : Json)
    (hk : cleanKeyB k.data = true) (h : o.lookupStr k = some w) :
    walkPart (.obj o) k.data = .ok w := by
  rw [walkPart, if_neg (by rw [isBracketPart_clean k.data hk]; exact Bool.false_ne_true)]
  show subscriptStr (.obj o) (String.mk k.data) = .ok w
  rw [show String.mk k.data = k from rfl]
  exact subscriptStr_lookup o k w h

theorem walkPart_bracket (o : JObj) (k : String) (i : Nat) (a : JArr) (w : Json)
    (hk : cleanKeyB k.data = true) (hlook : o.lookupStr k = some (.arr a))
    (hnth : a.nth i = some w) :
    walkPart (.obj o) (k.data ++ '[' :: (natToChars i ++ [']'])) = .ok w := by
  rw [walkPart, if_pos (isBracketPart_part k.data (natToChars i))]
  rw [bracketText_part k.data (natToChars i) hk (natToChars_noBrackets i),
    pyInt_natToChars i, fieldOf_part k.data _ hk,
    show String.mk k.data = k from rfl]
  show PyRes.bind (subscriptStr (.obj o) k) (fun c => subscriptInt c (Int.ofNat i)) = .ok w
  rw [subscriptStr_lookup o k _ hlook]
  show subscriptInt (.arr a) (Int.ofNat i) = .ok w
  exact subscriptInt_nth a i w hnth

theorem walkParts_route : ∀ (segs : List Seg) (d x : Json),
    keysClean segs = true → noIdxIdx segs = true → headKey segs = true →
    getRoute d segs = some x → walkParts d (partsOf segs) = .ok x
  | [], d, x => by
    intro _ _ hh _
    simp [headKey] at hh
  | .idx i :: rest, d, x => by
    intro _ _ hh _
    simp [headKey] at hh
  | [.key k], d, x => by
    intro hkc _ _ h
    cases d with
    | obj o =>
      simp only [getRoute] at h
      cases hl : o.lookupStr k with
      | none => rw [hl] at h; simp [Option.bind] at h
      | some c =>
        rw [hl] at h
        simp only [Option.bind, getRoute, Option.some_inj] at h
        subst h
        simp only [keysClean, Bool.and_eq_true] at hkc
        show PyRes.bind (walkPart (.obj o) k.data) (fun d2 => walkParts d2 (partsOf [])) = .ok c
        rw [walkPart_plain o k c hkc.1 hl]
        rfl
    | null => simp [getRoute] at h
    | bool b => simp [getRoute] at h
    | num n => simp [getRoute] at h
    | str s => simp [getRoute] at h
    | arr a => simp [getRoute] at h
  | .key k :: .key k2 :: rest, d, x => by
    intro hkc hni _ h
    cases d with
    | obj o =>
      simp only [getRoute] at h
      cases hl : o.lookupStr k with
      | none => rw [hl] at h; simp [Option.bind] at h
      | some c =>
        rw [hl] at h
        simp only [Option.bind] at h
        simp only [keysClean, Bool.and_eq_true] at hkc
        have htail := walkParts_route (.key k2 :: rest) c x
          (by simp [keysClean, hkc.2.1, hkc.2.2]) (by simpa [noIdxIdx] using hni) rfl h
        show PyRes.bind (walkPart (.obj o) k.data)
          (fun d2 => walkParts d2 (partsOf (.key k2 :: rest))) = .ok x
        rw [walkPart_plain o k c hkc.1 hl]
        exact htail
    | null => simp [getRoute] at h
    | bool b => simp [getRoute] at h
    | num n => simp [getRoute] at h
    | str s => simp [getRoute] at h
    | arr a => simp [getRoute] at h
  | .key k :: .idx i :: rest, d, x => by
    intro hkc hni _ h
    cases d with
    | obj o =>
      simp only [getRoute] at h
      cases hl : o.lookupStr k with
      | none => rw [hl] at h; simp [Option.bind] at h
      | some c =>
        rw [hl] at h
        simp only [Option.bind] at h
        simp only [keysClean, Bool.and_eq_true] at hkc
        cases c with
        | arr a =>
          simp only [getRoute] at h
          cases hn : a.nth i with
          | none => rw [hn] at h; simp [Option.bind] at h
          | some y =>
            rw [hn] at h
            simp only [Option.bind] at h
            show PyRes.bind (walkPart (.obj o) (k.data ++ '[' :: (natToChars i ++ [']'])))
              (fun d2 => walkParts d2 (partsOf rest)) = .ok x
            rw [walkPart_bracket o k i a y hkc.1 hl hn]
            cases rest with
            | nil =>
              simp only [getRoute, Option.some_inj] at h
              subst h
              rfl
            | cons s2 rest2 =>
              cases s2 with
              | key k3 =>
                exact walkParts_route (.key k3 :: rest2) y x
                  (by simpa [keysClean] using hkc.2) (by simpa [noIdxIdx] using hni) rfl h
              | idx j =>
                simp [noIdxIdx] at hni
        | obj o2 => simp [getRoute] at h
        | null => simp [getRoute] at h
        | bool b => simp [getRoute] at h
        | num n => simp [getRoute] at h
        | str s => simp [getRoute] at h
    | null => simp [getRoute] at h
    | bool b => simp [getRoute] at h
    | num n => simp [getRoute] at h
    | str s => simp [getRoute] at h
    | arr a => simp [getRoute] at h

/-! ## Writing back the value already present is the identity (C3) -/

theorem normIdx_ofNat (len i : Nat) (h : i < len) :
    normIdx len (Int.ofNat i) = some i := by
  simp only [normIdx]
  rw [if_pos (show (0 : Int) ≤ Int.ofNat i from Int.ofNat_le.mpr (Nat.zero_le i))]
  rw [if_pos (show (Int.ofNat i) < (len : Int) from Int.ofNat_lt.mpr h)]
  rfl

theorem partsOf_ne_nil : ∀ (s : Seg) (r : List Seg), partsOf (s :: r) ≠ []
  | .key k, [] => by simp [partsOf]
  | .key k, .idx i :: r => by simp [partsOf]
  | .key k, .key k2 :: r => by simp [partsOf]
  | .idx i, r => by simp [partsOf]

theorem assignPart_plain_id (o : JObj) (k : String) (c : Json)
    (hk : cleanKeyB k.data = true) (hl : o.lookupStr k = some c) :
    assignPart (.obj o) k.data c = .ok (.obj o) := by
  rw [assignPart, if_neg (by rw [isBracketPart_clean k.data hk]; exact Bool.false_ne_true)]
  show PyRes.ok (Json.obj (o.setStr (String.mk k.data) c)) = PyRes.ok (Json.obj o)
  rw [show String.mk k.data = k from rfl, setStr_lookup_id o k c hl]

theorem assignPart_bracket_id (o : JObj) (k : String) (i : Nat) (a : JArr) (y : Json)
    (hk : cleanKeyB k.data = true) (hl : o.lookupStr k = some (.arr a))
    (hn : a.nth i = some y) :
    assignPart (.obj o) (k.data ++ '[' :: (natToChars i ++ [']'])) y = .ok (.obj o) := by
  rw [assignPart, if_pos (isBracketPart_part k.data (natToChars i)),
    bracketText_part k.data (natToChars i) hk (natToChars_noBrackets i),
    pyInt_natToChars i, fieldOf_part k.data _ hk,
    show String.mk k.data = k from rfl,
    subscriptStr_lookup o k _ hl]
  dsimp only
  rw [normIdx_ofNat a.length i (nth_lt_length a i y hn)]
  show PyRes.ok (Json.obj (o.setStr k (Json.arr (a.setNth i y)))) = PyRes.ok (Json.obj o)
  rw [setNth_nth_id a i y hn, setStr_lookup_id o k _ hl]

theorem updateAt_plain_step (o : JObj) (k : String) (c : Json) (ps : List (List Char))
    (last : List Char) (x : Json) (hk : cleanKeyB k.data = true)
    (hl : o.lookupStr k = some c) (hrec : updateAt c ps last x = .ok c) :
    updateAt (.obj o) (k.data :: ps) last x = .ok (.obj o) := by
  simp only [updateAt]
  rw [if_neg (by rw [isBracketPart_clean k.data hk]; exact Bool.false_ne_true)]
  rw [show String.mk k.data = k from rfl, hl]
  dsimp only
  rw [hrec]
  show PyRes.ok (Json.obj (o.setStr k c)) = PyRes.ok (Json.obj o)
  rw [setStr_lookup_id o k c hl]

theorem updateAt_bracket_step (o : JObj) (k : String) (i : Nat) (a : JArr) (y : Json)
    (ps : List (List Char)) (last : List Char) (x : Json)
    (hk : cleanKeyB k.data = true) (hl : o.lookupStr k = some (.arr a))
    (hn : a.nth i = some y) (hrec : updateAt y ps last x = .ok y) :
    updateAt (.obj o) ((k.data ++ '[' :: (natToChars i ++ [']'])) :: ps) last x
      = .ok (.obj o) := by
  simp only [updateAt]
  rw [if_pos (isBracketPart_part k.data (natToChars i)),
    bracketText_part k.data (natToChars i) hk (natToChars_noBrackets i),
    pyInt_natToChars i, fieldOf_part k.data _ hk,
    show String.mk k.data = k from rfl,
    subscriptStr_lookup o k _ hl]
  dsimp only
  rw [normIdx_ofNat a.length i (nth_lt_length a i y hn)]
  dsimp only
  rw [hn]
  dsimp only
  rw [hrec]
  show PyRes.ok (Json.obj (o.setStr k (Json.arr (a.setNth i y)))) = PyRes.ok (Json.obj o)
  rw [setNth_nth_id a i y hn, setStr_lookup_id o k _ hl]

theorem updateAt_route_id : ∀ (segs : List Seg) (d x : Json),
    keysClean segs = true → noIdxIdx segs = true → headKey segs = true →
    getRoute d segs = some x →
    ∃ lastPart, (partsOf segs).getLast? = some lastPart ∧
      updateAt d (partsOf segs).dropLast lastPart x = .ok d
  | [], d, x => by
    intro _ _ hh _
    simp [headKey] at hh
  | .idx i :: rest, d, x => by
    intro _ _ hh _
    simp [headKey] at hh
  | [.key k], d, x => by
    intro hkc _ _ h
    cases d with
    | obj o =>
      simp only [getRoute] at h
      cases hl : o.lookupStr k with
      | none => rw [hl] at h; simp [Option.bind] at h
      | some c =>
        rw [hl] at h
        simp only [Option.bind, getRoute, Option.some_inj] at h
        subst h
        simp only [keysClean, Bool.and_eq_true] at hkc
        refine ⟨k.data, by simp [partsOf], ?_⟩
        exact assignPart_plain_id o k c hkc.1 hl
    | null => simp [getRoute] at h
    | bool b => simp [getRoute] at h
    | num n => simp [getRoute] at h
    | str s => simp [getRoute] at h
    | arr a => simp [getRoute] at h
  | [.key k, .idx i], d, x => by
    intro hkc hni _ h
    cases d with
    | obj o =>
      simp only [getRoute] at h
      cases hl : o.lookupStr k with
      | none => rw [hl] at h; simp [Option.bind] at h
      | some c =>
        rw [hl] at h
        simp only [Option.bind] at h
        cases c with
        | arr a =>
          simp only [getRoute] at h
          cases hn : a.nth i with
          | none => rw [hn] at h; simp [Option.bind] at h
          | some y =>
            rw [hn] at h
            simp only [Option.bind, getRoute, Option.some_inj] at h
            subst h
            simp only [keysClean, Bool.and_eq_true] at hkc
            refine ⟨k.data ++ '[' :: (natToChars i ++ [']']), by simp [partsOf], ?_⟩
            exact assignPart_bracket_id o k i a y hkc.1 hl hn
        | obj o2 => simp [getRoute] at h
        | null => simp [getRoute] at h
        | bool b => simp [getRoute] at h
        | num n => simp [getRoute] at h
        | str s => simp [getRoute] at h
    | null => simp [getRoute] at h
    | bool b => simp [getRoute] at h
    | num n => simp [getRoute] at h
    | str s => simp [getRoute] at h
    | arr a => simp [getRoute] at h
  | .key k :: .key k2 :: rest, d, x => by
    intro hkc hni _ h
    cases d with
    | obj o =>
      simp only [getRoute] at h
      cases hl : o.lookupStr k with
      | none => rw [hl] at h; simp [Option.bind] at h
      | some c =>
        rw [hl] at h
        simp only [Option.bind] at h
        simp only [keysClean, Bool.and_eq_true] at hkc
        obtain ⟨last, hlast, hupd⟩ := updateAt_route_id (.key k2 :: rest) c x
          (by simp [keysClean, hkc.2.1, hkc.2.2]) (by simpa [noIdxIdx] using hni) rfl h
        have hpp : partsOf (.key k :: .key k2 :: rest) =
            k.data :: partsOf (.key k2 :: rest) := rfl
        cases hp : partsOf (.key k2 :: rest) with
        | nil => exact absurd hp (partsOf_ne_nil _ _)
        | cons p ps =>
          rw [hp] at hlast hupd
          refine ⟨last, ?_, ?_⟩
          · rw [hpp, hp, List.getLast?_cons_cons]
            exact hlast
          · rw [hpp, hp]
            show updateAt (Json.obj o) (k.data :: (p :: ps).dropLast) last x
              = PyRes.ok (Json.obj o)
            exact updateAt_plain_step o k c _ last x hkc.1 hl hupd
    | null => simp [getRoute] at h
    | bool b => simp [getRoute] at h
    | num n => simp [getRoute] at h
    | str s => simp [getRoute] at h
    | arr a => simp [getRoute] at h
  | .key k :: .idx i :: .key k3 :: rest3, d, x => by
    intro hkc hni _ h
    cases d with
    | obj o =>
      simp only [getRoute] at h
      cases hl : o.lookupStr k with
      | none => rw [hl] at h; simp [Option.bind] at h
      | some c =>
        rw [hl] at h
        simp only [Option.bind] at h
        cases c with
        | arr a =>
          simp only [getRoute] at h
          cases hn : a.nth i with
          | none => rw [hn] at h; simp [Option.bind] at h
          | some y =>
            rw [hn] at h
            simp only [Option.bind] at h
            simp only [keysClean, Bool.and_eq_true] at hkc
            obtain ⟨last, hlast, hupd⟩ := updateAt_route_id (.key k3 :: rest3) y x
              (by simp [keysClean, hkc.2.1, hkc.2.2]) (by simpa [noIdxIdx] using hni) rfl h
            have hpp : partsOf (.key k :: .idx i :: .key k3 :: rest3) =
                (k.data ++ '[' :: (natToChars i ++ [']'])) :: partsOf (.key k3 :: rest3) := rfl
            cases hp : partsOf (.key k3 :: rest3) with
            | nil => exact absurd hp (partsOf_ne_nil _ _)
            | cons p ps =>
              rw [hp] at hlast hupd
              refine ⟨last, ?_, ?_⟩
              · rw [hpp, hp, List.getLast?_cons_cons]
                exact hlast
              · rw [hpp, hp]
                show updateAt (Json.obj o)
                    ((k.data ++ '[' :: (natToChars i ++ [']'])) :: (p :: ps).dropLast) last x
                  = PyRes.ok (Json.obj o)
                exact updateAt_bracket_step o k i a y _ last x hkc.1 hl hn hupd
        | obj o2 => simp [getRoute] at h
        | null => simp [getRoute] at h
        | bool b => simp [getRoute] at h
        | num n => simp [getRoute] at h
        | str s => simp [getRoute] at h
    | null => simp [getRoute] at h
    | bool b => simp [getRoute] at h
    | num n => simp [getRoute] at h
    | str s => simp [getRoute] at h
    | arr a => simp [getRoute] at h
  | .key k :: .idx i :: .idx j :: rest3, d, x => by
    intro _ hni _ _
    simp [noIdxIdx] at hni

theorem isPre_self_append : ∀ (pre t : List Char), isPre pre (pre ++ t) = true
  | [], t => rfl
  | c :: cs, t => by
    simp only [List.cons_append, isPre, Bool.and_eq_true, decide_eq_true_eq]
    refine ⟨?_, isPre_self_append cs t⟩
    trivial

/-- **C3** (corrected): on a document whose dict keys are distinct strings
free of `.`, `[` and `]`, and which has no list directly inside a list,
every `(path, value)` pair emitted by the Field Extractor resolves back
through Path Addressing (strip `root.`, split on dots, bracket indices) to
exactly the stored value, and writing that value back through
`update_nested_field` succeeds and leaves the document unchanged. -/
theorem C3_roundtrip (o : JObj) (hwf : WFObj o = true) (p v : String)
    (hmem : (p, v) ∈ extract_text_fields (.obj o)) :
    readPath (.obj o) (cleanPath p) = .ok (.str v) ∧
    update_nested_field (.obj o) (cleanPath p) (.str v) = .ok (true, .obj o) := by
  simp only [extract_text_fields, List.mem_map] at hmem
  obtain ⟨⟨pc, v0⟩, hmem, heq⟩ := hmem
  rw [Prod.mk.injEq] at heq
  obtain ⟨rfl, rfl⟩ := heq
  rcases extractJC_spec (.obj o) "root".data [] pc v0 (by simpa [WFJson] using hwf) hmem with
    hin | ⟨segs, hne, hpc, hroute⟩
  · simp at hin
  · have hhead := getRoute_obj_headKey o segs (.str v0) hne hroute
    have hok := getRoute_segsOk segs (.obj o) (.str v0) (by simpa [WFJson] using hwf) hroute
    obtain ⟨hkcfull, hni, _⟩ := hok
    cases segs with
    | nil => exact absurd rfl hne
    | cons s rest =>
      cases s with
      | idx i => simp [headKey] at hhead
      | key k =>
        have hks : cleanKeyB k.data = true ∧ keysClean rest = true := by
          simpa [keysClean] using hkcfull
        have hps : pc = "root.".data ++ (k.data ++ serialSegs rest) := by
          rw [hpc]
          rfl
        have hclean : cleanPath (String.mk pc) = String.mk (k.data ++ serialSegs rest) := by
          rw [cleanPath, if_pos (show isPre "root.".data (String.mk pc).data = true by
            rw [show (String.mk pc).data = pc from rfl, hps]
            exact isPre_self_append _ _)]
          congr 1
          rw [show (String.mk pc).data = pc from rfl, hps]
          exact List.drop_left "root.".data _
        have hsp : splitDot (cleanPath (String.mk pc)).data = partsOf (Seg.key k :: rest) := by
          rw [hclean]
          show splitDot (k.data ++ serialSegs rest) = _
          exact splitDot_serial rest k hks.1 hks.2 hni
        obtain ⟨lastPart, hlast, hupd⟩ :=
          updateAt_route_id (.key k :: rest) (.obj o) (.str v0) hkcfull hni rfl hroute
        constructor
        · rw [readPath, hsp]
          exact walkParts_route (.key k :: rest) (.obj o) (.str v0) hkcfull hni rfl hroute
        · simp only [update_nested_field]
          rw [hsp, hlast]
          dsimp only
          rw [hupd]

/-- Concrete instance of the C3 round-trip on `{"a": {"title": "x"}}`:
the extractor emits `("root.a.title", "x")`, reading that path back gives
`"x"`, and rewriting `"x"` there leaves the document unchanged. -/
theorem C3_roundtrip_witness :
    WFObj (.cons (.str "a") (.obj (.cons (.str "title") (.str "x") .nil)) .nil) = true ∧
    ("root.a.title", "x") ∈ extract_text_fields docATitle ∧
    (readPath docATitle (cleanPath "root.a.title") = .ok (.str "x") ∧
     update_nested_field docATitle (cleanPath "root.a.title") (.str "x")
       = .ok (true, docATitle)) :=
  ⟨by decide, by decide,
    C3_roundtrip (.cons (.str "a") (.obj (.cons (.str "title") (.str "x") .nil)) .nil)
      (by decide) "root.a.title" "x" (by decide)⟩
